import Mathlib

/-!
# Verification of the meal-ingestion and reconciliation pipeline

Shallow embedding of the meal-ingestion pipeline of the pottkieker_life
repository:

* the reconciliation/upsert engine of the meals module
  (functions normalizeString, hasAnyPrice, isMealEmpty, cleanupEmptyMeals,
  cleanupPhilturmGemuesebar, cleanupPastabar, upsertMeals);
* the feed normalizer of backend/utils/mensaParser.js
  (extractMealsForDate, simplifyNotes, cleanMealName, getTodaysMeals,
  getAllTodaysMeals, isBerlinWeekend).

The persistent store is modelled as a list of meal rows (the meals table
without the synthetic autoincrement id and created_at columns, which are not
part of the meal data model).  Nullable SQL columns and nullable JavaScript
fields are modelled as Option String.  SQL semantics are embedded explicitly:

* LIKE folds case for ASCII letters only (SQLite default: characters outside
  A-Z/a-z, e.g. German umlauts, are compared case-sensitively);
* TRIM removes leading/trailing space characters (0x20) only;
* comparisons and IN/NOT IN follow three-valued logic: a comparison with NULL
  is never true, so a WHERE clause mentioning a NULL field does not match.

JavaScript string trimming (String.prototype.trim) and case folding
(toLowerCase) are modelled on the character ranges that occur in the data:
ASCII whitespace for trim, A-Z plus the German capital umlauts for
toLowerCase.
-/

/-! ## Character and string helpers -/

/-- JavaScript whitespace (the common characters matched by the regex
class for whitespace and trimmed by String.prototype.trim). -/
def jsWsChar (c : Char) : Bool :=
  c = ' ' || c = '\t' || c = '\n' || c = '\r' || c = '\x0b' || c = '\x0c'

/-- JavaScript String.prototype.trim, on the modelled whitespace set. -/
def jsTrim (s : String) : String :=
  ((s.toList.dropWhile jsWsChar).reverse.dropWhile jsWsChar).reverse.asString

/-- ASCII-only lower casing of a character (what SQLite LIKE applies). -/
def asciiLowerChar (c : Char) : Char :=
  if 'A' ≤ c && c ≤ 'Z' then Char.ofNat (c.toNat + 32) else c

/-- JavaScript toLowerCase on the characters occurring in the data:
ASCII letters plus the German capital umlauts. -/
def jsLowerChar (c : Char) : Char :=
  if c = 'Ä' then 'ä' else if c = 'Ö' then 'ö' else if c = 'Ü' then 'ü'
  else asciiLowerChar c

def asciiLower (s : String) : String := (s.toList.map asciiLowerChar).asString

def jsLower (s : String) : String := (s.toList.map jsLowerChar).asString

/-- Substring containment (JavaScript String.prototype.includes). -/
def strIncludes (needle s : String) : Bool :=
  decide (needle.toList <:+: s.toList)

/-- SQL TRIM: removes leading and trailing spaces (0x20) only. -/
def sqlTrim (s : String) : String :=
  ((s.toList.dropWhile (· = ' ')).reverse.dropWhile (· = ' ')).reverse.asString

/-- SQLite v LIKE '%needle%' for a nullable column value: substring match
after ASCII-only case folding; never true on NULL. -/
def likeSub (needle : String) (v : Option String) : Bool :=
  match v with
  | none => false
  | some s => strIncludes (asciiLower needle) (asciiLower s)

/-- SQL three-valued x NOT IN (list): true only when x is non-NULL, differs
from every listed value, and the list contains no NULL. -/
def sqlNotInOpt (x : Option String) (l : List (Option String)) : Bool :=
  match x with
  | none => false
  | some v => !(l.contains (some v)) && !(l.contains none)

/-- JavaScript template interpolation of a possibly-null value. -/
def jsTemplateOpt (o : Option String) : String := o.getD "null"

/-- JavaScript truthiness normalization of a nullable string:
null/undefined and the empty string are falsy. -/
def truthyStr (o : Option String) : Option String :=
  match o with
  | none => none
  | some s => if s = "" then none else some s

/-- First-occurrence deduplication, as iterating a JavaScript Set built
from a list. -/
def dedupFirst (xs : List String) : List String :=
  xs.foldl (fun acc x => if acc.contains x then acc else acc ++ [x]) []

/-- Splitting a character list at every occurrence of a separator
character, as JavaScript String.prototype.split with that separator. -/
def splitChar (sep : Char) : List Char → List (List Char)
  | [] => [[]]
  | c :: rest =>
    match splitChar sep rest with
    | [] => [[]]
    | h :: t => if c = sep then [] :: h :: t else (c :: h) :: t

/-- Splitting at the bar character (the grouping-key separator). -/
def splitBar (l : List Char) : List (List Char) := splitChar '|' l

/-! ## The meal record and the store -/

/-- A meal record: the canonical meal row (and equally the shape of a batch
meal handed to upsertMeals).  All fields correspond to nullable values in
the JavaScript/SQL source, hence Option String. -/
structure Meal where
  external_id : Option String
  name : Option String
  category : Option String
  date : Option String
  mensa_location : Option String
  price_student : Option String
  price_employee : Option String
  price_other : Option String
  notes : Option String
deriving DecidableEq, Repr

/-- The meals table: a list of stored rows. -/
abbrev Store := List Meal

/-- The external_id uniqueness constraint of the meals table: at most one
row per non-NULL external_id (SQL UNIQUE admits any number of NULLs). -/
def UniqueIds (s : Store) : Prop :=
  ∀ x : String, s.countP (fun r => r.external_id == some x) ≤ 1

instance : DecidablePred (fun r : Meal => r.external_id = none) := fun r =>
  inferInstanceAs (Decidable (r.external_id = none))

/-! ## The reconciliation / upsert engine -/

/-- normalizeString: null/undefined to empty string, else String(value).trim(). -/
def normalizeString (value : Option String) : String :=
  match value with
  | none => ""
  | some s => jsTrim s

/-- hasAnyPrice: some price field normalizes to a non-blank string. -/
def hasAnyPrice (meal : Meal) : Bool :=
  normalizeString meal.price_student ≠ "" ||
  normalizeString meal.price_employee ≠ "" ||
  normalizeString meal.price_other ≠ ""

/-- isMealEmpty: blank name, blank notes, and no price. -/
def isMealEmpty (meal : Meal) : Bool :=
  normalizeString meal.name = "" && normalizeString meal.notes = "" &&
  !hasAnyPrice meal

/-- The fixed external_id of the Philturm vegetable-bar placeholder for a
date (the template philturm_DATE_Gemuesebar). -/
def philturmPlaceholderId (d : String) : String :=
  "philturm_" ++ d ++ "_Gemuesebar"

/-- WHERE clause of the cleanupPhilturmGemuesebar DELETE for one date:
location philturm, the date, category LIKE '%Gemüsebar%', external_id
different from the placeholder id (never true on NULL external_id). -/
def philturmDelCond (d : String) (r : Meal) : Bool :=
  r.mensa_location == some "philturm" && r.date == some d &&
  likeSub "Gemüsebar" r.category &&
  (match r.external_id with
   | some x => x ≠ philturmPlaceholderId d
   | none => false)

/-- The distinct truthy dates of philturm batch meals, in first-occurrence
order (the philturmDates Set of cleanupPhilturmGemuesebar). -/
def philturmDates (meals : List Meal) : List String :=
  dedupFirst (((meals.filter (fun m => m.mensa_location == some "philturm")).filterMap
    (·.date)).filter (· ≠ ""))

/-- Store effect of cleanupPhilturmGemuesebar: one DELETE per collected date. -/
def cleanupPhilturmStore (meals : List Meal) (s : Store) : Store :=
  (philturmDates meals).foldl
    (fun st d => st.filter (fun r => !philturmDelCond d r)) s

/-- The pastabar filter of cleanupPastabar: truthy category whose
lower-cased text contains "pasta". -/
def isPastaMeal (m : Meal) : Bool :=
  match m.category with
  | none => false
  | some c => c ≠ "" && strIncludes "pasta" (jsLower c)

/-- The location|date grouping key used by cleanupPastabar. -/
def pastaKey (m : Meal) : String :=
  jsTemplateOpt m.mensa_location ++ "|" ++ jsTemplateOpt m.date

/-- Splitting a grouping key back into location and date (the destructured
result of key.split). -/
def splitKey (k : String) : String × String :=
  let parts := (splitBar k.toList).map List.asString
  (parts.getD 0 "", parts.getD 1 "")

/-- WHERE clause of the cleanupPastabar DELETE for one location/date group:
the location and date, category LIKE '%Pasta%', and external_id NOT IN the
batch's kept ids (three-valued: never true when the kept list has a NULL). -/
def pastaDelCond (loc d : String) (keep : List (Option String)) (r : Meal) : Bool :=
  r.mensa_location == some loc && r.date == some d &&
  likeSub "Pasta" r.category && sqlNotInOpt r.external_id keep

/-- The effective pastabar groups of a batch: for each distinct key the
split location/date and the external_ids to keep. -/
def pastaGroups (meals : List Meal) : List (String × String × List (Option String)) :=
  let pastabarMeals := meals.filter isPastaMeal
  (dedupFirst (pastabarMeals.map pastaKey)).map (fun k =>
    let (loc, d) := splitKey k
    (loc, d, (pastabarMeals.filter
      (fun m => m.mensa_location == some loc && m.date == some d)).map (·.external_id)))

/-- Store effect of cleanupPastabar: one DELETE per group with a non-empty
kept-id list. -/
def cleanupPastaStore (meals : List Meal) (s : Store) : Store :=
  (pastaGroups meals).foldl
    (fun st g => if g.2.2.isEmpty then st
                 else st.filter (fun r => !pastaDelCond g.1 g.2.1 g.2.2 r)) s

/-- One cleanup target of cleanupEmptyMeals: normalized location and date
(of the first meal that created the key) and the set of truthy external_ids. -/
structure EmptyGroup where
  key : String
  loc : Option String
  date : Option String
  ids : List String
deriving DecidableEq, Repr

/-- The grouping key of cleanupEmptyMeals for an empty batch meal. -/
def emptyKey (m : Meal) : String :=
  ((truthyStr m.mensa_location).getD "unknown") ++ "|" ++
  ((truthyStr m.date).getD "unknown")

/-- Insert one empty meal into the cleanup-target map (a list preserving
key-insertion order, ids added Set-style without duplicates). -/
def addEmptyMeal (gs : List EmptyGroup) (m : Meal) : List EmptyGroup :=
  let k := emptyKey m
  let addId (g : EmptyGroup) : EmptyGroup :=
    match truthyStr m.external_id with
    | some e => if g.ids.contains e then g else { g with ids := g.ids ++ [e] }
    | none => g
  if gs.any (fun g => g.key = k) then
    gs.map (fun g => if g.key = k then addId g else g)
  else
    gs ++ [addId { key := k, loc := truthyStr m.mensa_location,
                   date := truthyStr m.date, ids := [] }]

/-- The cleanup targets of cleanupEmptyMeals for a list of empty meals. -/
def emptyGroups (emptyMeals : List Meal) : List EmptyGroup :=
  emptyMeals.foldl addEmptyMeal []

/-- SQL emptiness of a stored row: name and notes NULL or TRIM-blank, and
every price COALESCE(TRIM(p), '') = ''. -/
def sqlRowEmpty (r : Meal) : Bool :=
  (match r.name with | none => true | some s => sqlTrim s = "") &&
  (match r.notes with | none => true | some s => sqlTrim s = "") &&
  (match r.price_student with | none => true | some s => sqlTrim s = "") &&
  (match r.price_employee with | none => true | some s => sqlTrim s = "") &&
  (match r.price_other with | none => true | some s => sqlTrim s = "")

/-- WHERE clause of the cleanupEmptyMeals DELETE for one group: the base
location condition (equality, or IS NULL when the group location is null),
the date condition when the group date is non-null, and then: the row is
itself SQL-empty, or (when the group collected ids) its external_id is IN
that id list. -/
def emptyDelCond (g : EmptyGroup) (r : Meal) : Bool :=
  (match g.loc with
   | some l => r.mensa_location == some l
   | none => r.mensa_location == none) &&
  (match g.date with
   | some d => r.date == some d
   | none => true) &&
  (sqlRowEmpty r ||
   (!g.ids.isEmpty &&
    (match r.external_id with
     | some x => g.ids.contains x
     | none => false)))

/-- Store effect of cleanupEmptyMeals: one DELETE per cleanup target
(no-op on an empty list of empty meals). -/
def cleanupEmptyStore (emptyMeals : List Meal) (s : Store) : Store :=
  (emptyGroups emptyMeals).foldl
    (fun st g => st.filter (fun r => !emptyDelCond g r)) s

/-- All three cleanup steps of upsertMeals in program order. -/
def afterCleanups (meals : List Meal) (s : Store) : Store :=
  cleanupEmptyStore (meals.filter isMealEmpty)
    (cleanupPastaStore meals (cleanupPhilturmStore meals s))

/-- The INSERT ... ON CONFLICT(external_id) DO UPDATE of one valid meal.
NOT NULL violations (name, date, mensa_location) reject the statement.  A
NULL external_id never conflicts (SQL UNIQUE treats NULLs as distinct), so
it always inserts; a non-NULL id updates the conflicting row in place
(overwriting every field with the incoming values) or inserts when absent. -/
def upsertOne (s : Store) (m : Meal) : Except Unit Store :=
  if m.name = none || m.date = none || m.mensa_location = none then .error ()
  else
    match m.external_id with
    | some x =>
      if s.any (fun r => r.external_id == some x) then
        .ok (s.map (fun r => if r.external_id == some x then m else r))
      else .ok (s ++ [m])
    | none => .ok (s ++ [m])

/-- The upsert loop over the valid meals, in batch order, stopping at the
first failing statement. -/
def upsertAll (s : Store) (meals : List Meal) : Except Unit Store :=
  match meals with
  | [] => .ok s
  | m :: rest =>
    match upsertOne s m with
    | .error e => .error e
    | .ok s' => upsertAll s' rest

/-- A marker per executed SQL statement, to state frame effects. -/
inductive Stmt where
  | delPhilturm (d : String)
  | delPasta (loc d : String)
  | delEmpty (key : String)
  | upsert (m : Meal)
deriving DecidableEq, Repr

/-- The DELETE statements issued by the three cleanup steps of a batch. -/
def cleanTrace (meals : List Meal) : List Stmt :=
  (philturmDates meals).map .delPhilturm ++
  ((pastaGroups meals).filter (fun g => !g.2.2.isEmpty)).map
    (fun g => .delPasta g.1 g.2.1) ++
  (emptyGroups (meals.filter isMealEmpty)).map (fun g => .delEmpty g.key)

/-- upsertMeals on a list batch: early return on an empty batch; the three
cleanups; partition into empty and valid meals; early return when no meal
is valid; then the upsert loop.  Returns the final store and the list of
executed statements, or an error when a storage statement fails. -/
def upsertMeals (meals : List Meal) (s : Store) : Except Unit (Store × List Stmt) :=
  if meals.isEmpty then .ok (s, [])
  else
    let s3 := afterCleanups meals s
    let validMeals := meals.filter (fun m => !isMealEmpty m)
    if validMeals.isEmpty then .ok (s3, cleanTrace meals)
    else
      match upsertAll s3 validMeals with
      | .error e => .error e
      | .ok s4 => .ok (s4, cleanTrace meals ++ validMeals.map .upsert)

/-- The JavaScript argument of upsertMeals, including the non-array case
rejected by the Array.isArray guard. -/
inductive UpsertArg where
  | notArray
  | arr (meals : List Meal)

/-- upsertMeals with the Array.isArray guard of the source. -/
def upsertMealsJs (a : UpsertArg) (s : Store) : Except Unit (Store × List Stmt) :=
  match a with
  | .notArray => .ok (s, [])
  | .arr meals => upsertMeals meals s

/-! ## The note simplifier (simplifyNotes) -/

/-- A regex word character of the source's patterns (ASCII \w). -/
def wordChar (c : Char) : Bool :=
  ('a' ≤ c && c ≤ 'z') || ('A' ≤ c && c ≤ 'Z') || ('0' ≤ c && c ≤ '9') || c = '_'

/-- Does the word w occur at the head of s with a word boundary after it? -/
def boundedPrefix (w s : List Char) : Bool :=
  w.isPrefixOf s &&
  (match s.drop w.length with
   | [] => true
   | c :: _ => !wordChar c)

/-- Does the word w occur somewhere in s with word boundaries on both
sides?  The flag carries whether the previous character was a word
character (false at the start of the string). -/
def boundedMatch (w : List Char) : Bool → List Char → Bool
  | _, [] => false
  | prevW, c :: rest =>
    (!prevW && boundedPrefix w (c :: rest)) || boundedMatch w (wordChar c) rest

/-- A note pattern of NOTE_LABELS: either a plain case-insensitive
substring regex, or a word-boundary-delimited case-insensitive word. -/
inductive Pat where
  | sub (w : String)
  | word (w : String)
deriving DecidableEq, Repr

/-- Case-insensitive pattern test (RegExp.prototype.test). -/
def patMatches (p : Pat) (note : String) : Bool :=
  match p with
  | .sub w => strIncludes (jsLower w) (jsLower note)
  | .word w => boundedMatch (jsLower w).toList false (jsLower note).toList

/-- The fixed ordered dietary-tag vocabulary with its patterns. -/
def NOTE_LABELS : List (String × List Pat) := [
  ("Vegan", [.sub "vegan"]),
  ("Vegetarisch", [.sub "vegetar"]),
  ("Rindfleisch", [.word "rind", .word "rindfleisch"]),
  ("Schweinefleisch", [.word "schwein", .word "schweinefleisch"]),
  ("Geflügel", [.word "huhn", .word "hähnchen", .word "haehnchen",
    .word "hähnchenfleisch", .word "haehnchenfleisch", .word "geflügel",
    .word "gefluegel", .word "pute", .word "putenfleisch", .word "hühnchen",
    .word "huehnchen"]),
  ("Laktosefrei", [.sub "laktosefrei", .sub "enthält keine laktose",
    .sub "enthaelt keine laktose"]),
  ("Wild", [.word "wild", .word "hirsch", .word "reh", .word "wildschwein"]),
  ("Lammfleisch", [.word "lamm", .word "lammfleisch"]),
  ("Fisch", [.word "fisch", .word "lachs", .word "forelle", .word "seelachs",
    .word "lachsfilet", .word "scholle", .word "tilapia", .word "hering",
    .word "makrele", .word "dorsch"]),
  ("Gelatine", [.sub "gelatine", .sub "gelatin"]),
  ("Alkohol", [.word "alkohol", .word "wein", .word "liqueur", .word "likör",
    .word "schnaps", .word "rum", .word "whisky", .word "whiskey",
    .word "weinbrand"])
]

/-- The set of labels activated by the raw notes (the matchedLabels Set). -/
def matchedLabels (notes : List String) : List String :=
  (NOTE_LABELS.filter
    (fun e => notes.any (fun n => e.2.any (fun p => patMatches p n)))).map (·.1)

/-- simplifyNotes: activate labels by pattern match, apply the
Vegan-implies-Vegetarisch/Laktosefrei suppression, and emit the surviving
labels in vocabulary order. -/
def simplifyNotes (notes : List String) : List String :=
  let matched := matchedLabels notes
  let matched :=
    if matched.contains "Vegan" then
      matched.filter (fun l => l ≠ "Vegetarisch" && l ≠ "Laktosefrei")
    else matched
  (NOTE_LABELS.map (·.1)).filter (fun l => matched.contains l)

/-! ## The meal-name cleaner (cleanMealName) -/

/-- JavaScript trim on a character list. -/
def jsTrimList (l : List Char) : List Char :=
  (l.dropWhile jsWsChar).reverse.dropWhile jsWsChar |>.reverse

/-- An alphanumeric character including German umlauts and sharp s, the
token character class of the allergen-code test. -/
def alnumDE (c : Char) : Bool :=
  ('0' ≤ c && c ≤ '9') || ('A' ≤ c && c ≤ 'Z') || ('a' ≤ c && c ≤ 'z') ||
  c = 'Ä' || c = 'Ö' || c = 'Ü' || c = 'ä' || c = 'ö' || c = 'ü' || c = 'ß'

/-- The character class allowed inside a cleanable parenthetical group:
alphanumerics (with umlauts), dot, comma, whitespace and hyphen. -/
def parenClass (c : Char) : Bool :=
  alnumDE c || c = '.' || c = ',' || jsWsChar c || c = '-'

/-- Strip trailing whitespace of one comma piece (the whitespace a
following comma separator absorbs). -/
def dropTrailWs (l : List Char) : List Char :=
  (l.reverse.dropWhile jsWsChar).reverse

/-- The pieces after a first comma: each starts right after a comma, so its
leading whitespace belongs to that separator; every piece but the last is
also followed by a comma, so its trailing whitespace is absorbed too. -/
def commaTailPieces : List (List Char) → List (List Char)
  | [] => []
  | [p] => [p.dropWhile jsWsChar]
  | p :: ps => dropTrailWs (p.dropWhile jsWsChar) :: commaTailPieces ps

/-- The comma-separated tokens of a parenthetical content, as the
split-separator regex of the source: each comma absorbs the whitespace
adjacent to it on both sides, while leading whitespace of the first token
and trailing whitespace of the last survive; empty tokens are dropped. -/
def splitCommaTokens (content : List Char) : List String :=
  ((match splitChar ',' content with
    | [] => []
    | [p] => [p]
    | p :: ps => dropTrailWs p :: commaTailPieces ps).map List.asString).filter
    (· ≠ "")

/-- Are the parenthetical contents all short allergen-code tokens (at
least one token, each wholly alphanumeric and at most 4 characters)? -/
def isAllergenContent (content : List Char) : Bool :=
  let parts := splitCommaTokens content
  !parts.isEmpty && parts.all (fun p => p.toList.all alnumDE && p.length ≤ 4)

/-- The replacement for one matched parenthetical group: dropped entirely
for allergen codes, else re-emitted with a single leading space. -/
def parenReplacement (content : List Char) : List Char :=
  if isAllergenContent content then [] else ' ' :: '(' :: (content ++ [')'])

/-- Attempt the parenthetical regex at the head of s: optional whitespace,
an opening paren, a non-empty run of class characters, a closing paren.
Returns the content and the remainder after the match. -/
def tryParen (s : List Char) : Option (List Char × List Char) :=
  match s.drop (s.takeWhile jsWsChar).length with
  | '(' :: tail =>
    match tail.drop (tail.takeWhile parenClass).length with
    | ')' :: rest2 =>
      if (tail.takeWhile parenClass).isEmpty then none
      else some (tail.takeWhile parenClass, rest2)
    | _ => none
  | _ => none

theorem tryParen_length {s content rest2 : List Char}
    (h : tryParen s = some (content, rest2)) : rest2.length < s.length := by
  unfold tryParen at h
  split at h
  next tail heq =>
    split at h
    next rest2' heq2 =>
      split at h
      · exact absurd h (by simp)
      · have h1 : tail.length < s.length := by
          have := congrArg List.length heq
          have hd := List.length_drop (s.takeWhile jsWsChar).length s
          simp only [hd, List.length_cons] at this
          omega
        have h2 : rest2'.length < tail.length := by
          have := congrArg List.length heq2
          have hd := List.length_drop (tail.takeWhile parenClass).length tail
          simp only [hd, List.length_cons] at this
          omega
        injection h with h
        injection h with h h'
        subst h'
        omega
    next => exact absurd h (by simp)
  next => exact absurd h (by simp)

/-- The global parenthetical replacement pass of cleanMealName: scan left
to right, at each position attempt the regex (preferring the earliest
start), emit the replacement and resume after the match, else advance one
character.  Structured with an explicit fuel bound (always larger than the
input length, see scanCleanF_irrel) so that the function reduces
definitionally. -/
def scanCleanF : Nat → List Char → List Char
  | 0, _ => []
  | _ + 1, [] => []
  | f + 1, c :: rest =>
    match tryParen (c :: rest) with
    | some (content, rest2) => parenReplacement content ++ scanCleanF f rest2
    | none => c :: scanCleanF f rest

def scanClean (s : List Char) : List Char := scanCleanF (s.length + 1) s

theorem scanCleanF_irrel : ∀ f g s, s.length < f → s.length < g →
    scanCleanF f s = scanCleanF g s := by
  intro f
  induction f with
  | zero => intro g s h; omega
  | succ f ih =>
    intro g s hf hg
    match g, s with
    | g + 1, [] => rfl
    | g + 1, c :: rest =>
      simp only [scanCleanF]
      cases htp : tryParen (c :: rest) with
      | some pair =>
        have hlen := @tryParen_length (c :: rest) pair.1 pair.2 (by rw [htp])
        simp only [List.length_cons] at hf hg hlen
        exact congrArg _ (ih g pair.2 (by omega) (by omega))
      | none =>
        simp only [List.length_cons] at hf hg
        exact congrArg _ (ih g rest (by omega) (by omega))

theorem scanClean_cons (c : Char) (rest : List Char) :
    scanClean (c :: rest) =
      match tryParen (c :: rest) with
      | some (content, rest2) => parenReplacement content ++ scanClean rest2
      | none => c :: scanClean rest := by
  show scanCleanF (rest.length + 2) (c :: rest) = _
  simp only [scanCleanF]
  cases htp : tryParen (c :: rest) with
  | some pair =>
    have hlen := @tryParen_length (c :: rest) pair.1 pair.2 (by rw [htp])
    simp only [List.length_cons] at hlen
    exact congrArg _ (scanCleanF_irrel _ _ _ (by omega) (by omega))
  | none => exact congrArg _ (scanCleanF_irrel _ _ _ (by omega) (by omega))

/-- When s starts with a run of at least two whitespace characters, the
remainder after that maximal run. -/
def wsRunSplit (s : List Char) : Option (List Char) :=
  match s with
  | c :: d :: _ =>
    if jsWsChar c && jsWsChar d then some (s.dropWhile jsWsChar) else none
  | _ => none

theorem wsRunSplit_length {s r : List Char} (h : wsRunSplit s = some r) :
    r.length < s.length := by
  unfold wsRunSplit at h
  split at h
  next c d t =>
    split at h
    next hw =>
      injection h with h
      subst h
      simp only [Bool.and_eq_true] at hw
      have he : (c :: d :: t).dropWhile jsWsChar = t.dropWhile jsWsChar := by
        simp [List.dropWhile_cons, hw.1, hw.2]
      rw [he]
      have hle : (t.dropWhile jsWsChar).length ≤ t.length :=
        (List.dropWhile_sublist _).length_le
      simp only [List.length_cons]
      omega
    next => exact absurd h (by simp)
  next => exact absurd h (by simp)

/-- The collapse of whitespace runs: every run of two or more whitespace
characters becomes a single space; an isolated whitespace character is
kept as is.  Fueled like scanCleanF. -/
def collapseWsRunsF : Nat → List Char → List Char
  | 0, _ => []
  | _ + 1, [] => []
  | f + 1, c :: rest =>
    match wsRunSplit (c :: rest) with
    | some rest2 => ' ' :: collapseWsRunsF f rest2
    | none => c :: collapseWsRunsF f rest

def collapseWsRuns (s : List Char) : List Char := collapseWsRunsF (s.length + 1) s

theorem collapseWsRunsF_irrel : ∀ f g s, s.length < f → s.length < g →
    collapseWsRunsF f s = collapseWsRunsF g s := by
  intro f
  induction f with
  | zero => intro g s h; omega
  | succ f ih =>
    intro g s hf hg
    match g, s with
    | g + 1, [] => rfl
    | g + 1, c :: rest =>
      simp only [collapseWsRunsF]
      cases htp : wsRunSplit (c :: rest) with
      | some rest2 =>
        have hlen := wsRunSplit_length htp
        simp only [List.length_cons] at hf hg hlen
        exact congrArg _ (ih g rest2 (by omega) (by omega))
      | none =>
        simp only [List.length_cons] at hf hg
        exact congrArg _ (ih g rest (by omega) (by omega))

theorem collapseWsRuns_cons (c : Char) (rest : List Char) :
    collapseWsRuns (c :: rest) =
      match wsRunSplit (c :: rest) with
      | some rest2 => ' ' :: collapseWsRuns rest2
      | none => c :: collapseWsRuns rest := by
  show collapseWsRunsF (rest.length + 2) (c :: rest) = _
  simp only [collapseWsRunsF]
  cases htp : wsRunSplit (c :: rest) with
  | some rest2 =>
    have hlen := wsRunSplit_length htp
    simp only [List.length_cons] at hlen
    exact congrArg _ (collapseWsRunsF_irrel _ _ _ (by omega) (by omega))
  | none => exact congrArg _ (collapseWsRunsF_irrel _ _ _ (by omega) (by omega))

/-- When s starts with a whitespace run directly followed by a comma, the
remainder after that comma. -/
def wsCommaSplit (s : List Char) : Option (List Char) :=
  match s with
  | c :: _ =>
    if jsWsChar c then
      match s.drop (s.takeWhile jsWsChar).length with
      | ',' :: rest2 => some rest2
      | _ => none
    else none
  | [] => none

theorem wsCommaSplit_length {s r : List Char} (h : wsCommaSplit s = some r) :
    r.length < s.length := by
  unfold wsCommaSplit at h
  split at h
  next c t =>
    split at h
    next hw =>
      split at h
      next rest2 heq =>
        injection h with h
        subst h
        have h1 : ((c :: t).drop ((c :: t).takeWhile jsWsChar).length).length ≤
            (c :: t).length := by
          rw [List.length_drop]; omega
        rw [heq] at h1
        simp only [List.length_cons] at h1 ⊢
        omega
      next => exact absurd h (by simp)
    next => exact absurd h (by simp)
  next => exact absurd h (by simp)

/-- The stray-comma fix: whitespace immediately preceding a comma is
removed.  Fueled like scanCleanF. -/
def fixCommaSpaceF : Nat → List Char → List Char
  | 0, _ => []
  | _ + 1, [] => []
  | f + 1, c :: rest =>
    match wsCommaSplit (c :: rest) with
    | some rest2 => ',' :: fixCommaSpaceF f rest2
    | none => c :: fixCommaSpaceF f rest

def fixCommaSpace (s : List Char) : List Char := fixCommaSpaceF (s.length + 1) s

theorem fixCommaSpaceF_irrel : ∀ f g s, s.length < f → s.length < g →
    fixCommaSpaceF f s = fixCommaSpaceF g s := by
  intro f
  induction f with
  | zero => intro g s h; omega
  | succ f ih =>
    intro g s hf hg
    match g, s with
    | g + 1, [] => rfl
    | g + 1, c :: rest =>
      simp only [fixCommaSpaceF]
      cases htp : wsCommaSplit (c :: rest) with
      | some rest2 =>
        have hlen := wsCommaSplit_length htp
        simp only [List.length_cons] at hf hg hlen
        exact congrArg _ (ih g rest2 (by omega) (by omega))
      | none =>
        simp only [List.length_cons] at hf hg
        exact congrArg _ (ih g rest (by omega) (by omega))

theorem fixCommaSpace_cons (c : Char) (rest : List Char) :
    fixCommaSpace (c :: rest) =
      match wsCommaSplit (c :: rest) with
      | some rest2 => ',' :: fixCommaSpace rest2
      | none => c :: fixCommaSpace rest := by
  show fixCommaSpaceF (rest.length + 2) (c :: rest) = _
  simp only [fixCommaSpaceF]
  cases htp : wsCommaSplit (c :: rest) with
  | some rest2 =>
    have hlen := wsCommaSplit_length htp
    simp only [List.length_cons] at hlen
    exact congrArg _ (fixCommaSpaceF_irrel _ _ _ (by omega) (by omega))
  | none => exact congrArg _ (fixCommaSpaceF_irrel _ _ _ (by omega) (by omega))

/-- cleanMealName: strip allergen-code parentheticals (or normalize the
space before preserved ones), collapse whitespace runs, trim, and remove
whitespace before commas.  Falsy input is returned unchanged. -/
def cleanMealName (name : String) : String :=
  if name = "" then name
  else (fixCommaSpace (jsTrimList (collapseWsRuns (scanClean name.toList)))).asString

/-! ## A model of parsed-XML JavaScript values -/

/-- A JavaScript value as produced by the XML parser: undefined, null, a
string, an array, or an object with string-keyed fields. -/
inductive JVal where
  | undefV
  | jnull
  | jstr (s : String)
  | jarr (xs : List JVal)
  | jobj (fs : List (String × JVal))
deriving Repr

/-- JavaScript strict equality of a value against a string literal: true
exactly for an equal string (no coercion across types). -/
def jsStrictEqStr (v : JVal) (s : String) : Bool :=
  match v with
  | .jstr t => t == s
  | _ => false

/-- JavaScript truthiness. -/
def truthyB : JVal → Bool
  | .undefV => false
  | .jnull => false
  | .jstr s => s ≠ ""
  | .jarr _ => true
  | .jobj _ => true

/-- Field lookup on an object's field list; absent fields are undefined. -/
def jlookup (fs : List (String × JVal)) (k : String) : JVal :=
  match fs.find? (fun f => f.1 == k) with
  | some f => f.2
  | none => .undefV

/-- Property access: throws (TypeError) on undefined/null, yields the field
on an object, and undefined on other primitives. -/
def jget : JVal → String → Except Unit JVal
  | .undefV, _ => .error ()
  | .jnull, _ => .error ()
  | .jobj fs, k => .ok (jlookup fs k)
  | _, _ => .ok .undefV

/-- Total property access, usable where the receiver is known truthy. -/
def jgetT (v : JVal) (k : String) : JVal :=
  match jget v k with
  | .ok w => w
  | .error _ => .undefV

mutual

/-- JavaScript string coercion (String(v) / regex test coercion). -/
def jsToString : JVal → String
  | .undefV => "undefined"
  | .jnull => "null"
  | .jstr s => s
  | .jobj _ => "[object Object]"
  | .jarr xs => jsArrJoin xs

/-- Array.prototype.toString: elements joined by commas, null/undefined
elements as empty strings. -/
def jsArrJoin : List JVal → String
  | [] => ""
  | [v] =>
    (match v with
     | .undefV => ""
     | .jnull => ""
     | w => jsToString w)
  | v :: rest =>
    (match v with
     | .undefV => ""
     | .jnull => ""
     | w => jsToString w) ++ "," ++ jsArrJoin rest

end

/-- A JavaScript value stored into a nullable text column: null/undefined
become NULL, strings stay, other values are coerced at the boundary. -/
def jvalToOptStr : JVal → Option String
  | .undefV => none
  | .jnull => none
  | .jstr s => some s
  | v => some (jsToString v)

/-! ## The feed normalizer (extractMealsForDate) -/

/-- Replacement of whitespace runs by single underscores (the external_id
derivation from the raw meal name).  Fueled like scanCleanF. -/
def underscoreNameF : Nat → List Char → List Char
  | 0, _ => []
  | _ + 1, [] => []
  | f + 1, c :: rest =>
    if jsWsChar c then '_' :: underscoreNameF f (rest.dropWhile jsWsChar)
    else c :: underscoreNameF f rest

def underscoreName (s : List Char) : List Char := underscoreNameF (s.length + 1) s

/-- The single-vs-array normalization applied throughout the parser. -/
def toJsList (v : JVal) : List JVal :=
  match v with
  | .jarr l => l
  | w => [w]

/-- The price entry for a role: the first truthy price object whose role
attribute equals the requested role string. -/
def findRole (prices : List JVal) (role : String) : Option JVal :=
  prices.find? (fun p => truthyB p && jsStrictEqStr (jgetT p "role") role)

/-- The nullable stored price: optional chaining on the found entry's text
value, with falsy values coerced to null. -/
def toPriceOpt (found : Option JVal) : Option String :=
  let pv := match found with
            | some p => jgetT p "_"
            | none => JVal.undefV
  if truthyB pv then
    some (match pv with
          | .jstr s => s
          | v => jsToString v)
  else none

/-- The fixed Philturm vegetable-bar placeholder meal for a category name
and date (the synthetic record pushed instead of the category's items). -/
def gemuesebarPlaceholder (catName date : String) : Meal :=
  { name := some "Gemüsebar"
    category := some catName
    date := some date
    mensa_location := some "philturm"
    price_student := some "0.85"
    price_employee := some "0.85"
    price_other := some "0.85"
    notes := some "Vegetarisch"
    external_id := some ("philturm" ++ "_" ++ date ++ "_" ++ "Gemuesebar") }

/-- Normalization of one feed meal node into a meal record.  Property
access on a missing node and external_id derivation from a non-string name
throw, as in the source. -/
def mealOf (catName : JVal) (date loc : String) (m : JVal) : Except Unit Meal :=
  match jget m "price" with
  | .error e => .error e
  | .ok priceV =>
    let prices := if truthyB priceV then toJsList priceV else []
    match jget m "note" with
    | .error e => .error e
    | .ok noteV =>
      let notes := if truthyB noteV then toJsList noteV else []
      match jget m "name" with
      | .error e => .error e
      | .ok nameV =>
        match nameV with
        | .jstr nm =>
          let filteredNotes := simplifyNotes (notes.map jsToString)
          .ok { name := some (cleanMealName nm)
                category := jvalToOptStr catName
                date := some date
                mensa_location := some loc
                price_student := toPriceOpt (findRole prices "student")
                price_employee := toPriceOpt (findRole prices "employee")
                price_other := toPriceOpt (findRole prices "other")
                notes := some (if filteredNotes.isEmpty then ""
                               else String.intercalate ", " filteredNotes)
                external_id := some (loc ++ "_" ++ date ++ "_" ++
                  (underscoreName nm.toList).asString) }
        | _ => .error ()

/-- Ordinary item extraction for one category node. -/
def catMealsNormal (date loc : String) (c : JVal) : Except Unit (List Meal) :=
  match jget c "meal" with
  | .error e => .error e
  | .ok cm => (toJsList cm).mapM (mealOf (jgetT c "name") date loc)

/-- Processing of one category node, with the Philturm vegetable-bar
special case: a truthy category name containing the keyword
(case-insensitively) at the philturm venue collapses to the single fixed
placeholder; lower-casing a truthy non-string name throws. -/
def catMeals (date loc : String) (c : JVal) : Except Unit (List Meal) :=
  if loc = "philturm" then
    match jget c "name" with
    | .error e => .error e
    | .ok nm =>
      if truthyB nm then
        match nm with
        | .jstr s =>
          if strIncludes "gemüsebar" (jsLower s) then
            .ok [gemuesebarPlaceholder s date]
          else catMealsNormal date loc c
        | _ => .error ()
      else catMealsNormal date loc c
  else catMealsNormal date loc c

/-- The day search: first day node whose date property strictly equals the
requested date (property access on a null/undefined day node throws). -/
def findDay (date : String) : List JVal → Except Unit (Option JVal)
  | [] => .ok none
  | d :: rest =>
    match jget d "date" with
    | .error e => .error e
    | .ok v => if jsStrictEqStr v date then .ok (some d) else findDay date rest

/-- The body of extractMealsForDate inside its try block: structural
validation, day lookup, and per-category meal extraction. -/
def extractBody (pd : JVal) (date loc : String) : Except Unit (List Meal) :=
  if truthyB pd = false then .ok [] else
  match jget pd "openmensa" with
  | .error e => .error e
  | .ok om =>
    if truthyB om = false then .ok [] else
    match jget om "canteen" with
    | .error e => .error e
    | .ok ct =>
      if truthyB ct = false then .ok [] else
      match jget ct "day" with
      | .error e => .error e
      | .ok dayV =>
        if truthyB dayV = false then .ok [] else
        match findDay date (toJsList dayV) with
        | .error e => .error e
        | .ok none => .ok []
        | .ok (some targetDay) =>
          match jget targetDay "category" with
          | .error e => .error e
          | .ok catV =>
            match (toJsList catV).mapM (catMeals date loc) with
            | .error e => .error e
            | .ok ls => .ok ls.flatten

/-- extractMealsForDate: the body with its catch-all handler, which logs
and returns an empty list on any thrown error. -/
def extractMealsForDate (pd : JVal) (date loc : String) : List Meal :=
  match extractBody pd date loc with
  | .ok ms => ms
  | .error _ => []

/-! ## The fetch pipeline (weekend short-circuit) -/

/-- The venue enumeration MENSA_LOCATIONS (id and display name). -/
def MENSA_LOCATIONS : List (String × String) :=
  [("studierendenhaus", "Schweinemensa"),
   ("blattwerk", "Blattwerk (Vegetarisch)"),
   ("philturm", "Philturm")]

/-- isBerlinWeekend on the Berlin-local day-of-week number (getDay():
0 Sunday .. 6 Saturday). -/
def isBerlinWeekend (berlinDay : Nat) : Bool :=
  berlinDay == 0 || berlinDay == 6

/-- getTodaysMeals, with the date/timezone environment abstracted: the
Berlin-local weekday number and the Berlin-local date string are inputs,
and the network fetch is an oracle whose result (or failure) is the
fetched argument.  The returned flag records whether fetchMensaData was
invoked. -/
def getTodaysMeals (berlinDay : Nat) (today loc : String)
    (fetched : Except Unit JVal) : List Meal × Bool :=
  if isBerlinWeekend berlinDay then ([], false)
  else
    match fetched with
    | .error _ => ([], true)
    | .ok data =>
      if truthyB data = false || truthyB (jgetT data "openmensa") = false then
        ([], true)
      else (extractMealsForDate data today loc, true)

/-- getAllTodaysMeals: weekend short-circuit, else the concatenation of
every venue's meals; the flag again records whether any fetch happened. -/
def getAllTodaysMeals (berlinDay : Nat) (today : String)
    (fetched : String → Except Unit JVal) : List Meal × Bool :=
  if isBerlinWeekend berlinDay then ([], false)
  else
    ((MENSA_LOCATIONS.map
      (fun p => (getTodaysMeals berlinDay today p.1 (fetched p.1)).1)).flatten, true)

/-! ## Claim theorems: note simplifier -/

theorem vegan_mem_matched {notes : List String}
    (h : "Vegan" ∈ simplifyNotes notes) :
    "Vegan" ∈ matchedLabels notes := by
  unfold simplifyNotes at h
  by_cases hc : "Vegan" ∈ matchedLabels notes
  · exact hc
  · rw [List.mem_filter] at h
    have h2 := h.2
    rw [if_neg (by simpa using hc)] at h2
    simp at h2
    exact absurd h2 hc

/-- C6: whenever the simplified note list contains Vegan, it contains
neither Vegetarisch nor Laktosefrei: the Vegan suppression removes both
tags from the output even when their own patterns matched independently. -/
theorem simplifyNotes_vegan_suppression (notes : List String)
    (h : "Vegan" ∈ simplifyNotes notes) :
    "Vegetarisch" ∉ simplifyNotes notes ∧ "Laktosefrei" ∉ simplifyNotes notes := by
  have hc : ("Vegan" ∈ matchedLabels notes) := vegan_mem_matched h
  have hcb : (matchedLabels notes).contains "Vegan" = true := by simpa using hc
  constructor <;> intro hmem <;>
    simp [simplifyNotes, hc, hcb, List.mem_filter] at hmem

/-- C6 witness: raw notes that activate Vegan, Vegetarisch and Laktosefrei
independently; the output keeps Vegan and drops the two implied tags. -/
theorem simplifyNotes_vegan_suppression_witness :
    "Vegan" ∈ simplifyNotes ["vegan", "vegetarisch", "laktosefrei"] ∧
    "Vegetarisch" ∉ simplifyNotes ["vegan", "vegetarisch", "laktosefrei"] ∧
    "Laktosefrei" ∉ simplifyNotes ["vegan", "vegetarisch", "laktosefrei"] := by
  have h : "Vegan" ∈ simplifyNotes ["vegan", "vegetarisch", "laktosefrei"] := by decide
  exact ⟨h, simplifyNotes_vegan_suppression _ h⟩

/-! ## Claim theorems: weekend short-circuit and empty-batch no-op -/

/-- C8: on a Berlin-local Saturday or Sunday, getTodaysMeals and
getAllTodaysMeals return the empty meal list with the fetch flag false:
the network fetcher is never invoked. -/
theorem weekend_short_circuit (berlinDay : Nat) (today loc : String)
    (fetched : Except Unit JVal) (fetchedAll : String → Except Unit JVal)
    (h : isBerlinWeekend berlinDay = true) :
    getTodaysMeals berlinDay today loc fetched = ([], false) ∧
    getAllTodaysMeals berlinDay today fetchedAll = ([], false) := by
  refine ⟨?_, ?_⟩
  · unfold getTodaysMeals; rw [if_pos h]
  · unfold getAllTodaysMeals; rw [if_pos h]

/-- C8 witness: Saturday (getDay() = 6), with a fetch oracle that would
succeed with data if it were consulted. -/
theorem weekend_short_circuit_witness :
    isBerlinWeekend 6 = true ∧
    getTodaysMeals 6 "2025-01-04" "philturm" (.ok (.jobj [])) = ([], false) ∧
    getAllTodaysMeals 6 "2025-01-04" (fun _ => .ok (.jobj [])) = ([], false) := by
  have h : isBerlinWeekend 6 = true := by decide
  exact ⟨h, weekend_short_circuit 6 "2025-01-04" "philturm" (.ok (.jobj []))
    (fun _ => .ok (.jobj [])) h⟩

/-- C10: upsertMeals called with a non-array argument or an empty batch
returns the store unchanged and executes no SQL statement at all (no read,
write or delete). -/
theorem upsertMeals_empty_noop (s : Store) :
    upsertMealsJs .notArray s = .ok (s, []) ∧ upsertMeals [] s = .ok (s, []) := by
  exact ⟨rfl, rfl⟩

/-! ## Claim theorems: structural anomalies of the feed -/

/-- The missing openmensa.canteen root anomaly. -/
def missingCanteen (pd : JVal) : Bool :=
  !truthyB pd || !truthyB (jgetT pd "openmensa") ||
  !truthyB (jgetT (jgetT pd "openmensa") "canteen")

/-- The missing (falsy) day list anomaly. -/
def missingDays (pd : JVal) : Bool :=
  !truthyB (jgetT (jgetT (jgetT pd "openmensa") "canteen") "day")

/-- No day node matches the requested date. -/
def noMatchingDay (pd : JVal) (date : String) : Bool :=
  match findDay date (toJsList (jgetT (jgetT (jgetT pd "openmensa") "canteen") "day")) with
  | .ok none => true
  | _ => false

/-- A structural anomaly of the parsed feed: missing canteen root, missing
day list, no day for the requested date, or any error thrown by the
extraction body (malformed day/category/meal nodes). -/
def StructuralAnomaly (pd : JVal) (date loc : String) : Prop :=
  missingCanteen pd = true ∨ missingDays pd = true ∨
  noMatchingDay pd date = true ∨ extractBody pd date loc = .error ()

theorem jget_ok_of_truthy {v : JVal} (k : String) (h : truthyB v = true) :
    jget v k = .ok (jgetT v k) := by
  cases v <;> simp [truthyB] at h <;> simp [jget, jgetT]

theorem extractBody_ok_empty_of_anomaly {pd : JVal} {date loc : String}
    (h : missingCanteen pd = true ∨ missingDays pd = true ∨
         noMatchingDay pd date = true) :
    extractBody pd date loc = .ok [] := by
  unfold extractBody
  by_cases h1 : truthyB pd = true
  case neg => simp [h1]
  rw [if_neg (by simp [h1]), jget_ok_of_truthy _ h1]
  dsimp only
  by_cases h2 : truthyB (jgetT pd "openmensa") = true
  case neg => simp [h2]
  rw [if_neg (by simp [h2]), jget_ok_of_truthy _ h2]
  dsimp only
  by_cases h3 : truthyB (jgetT (jgetT pd "openmensa") "canteen") = true
  case neg => simp [h3]
  rw [if_neg (by simp [h3]), jget_ok_of_truthy _ h3]
  dsimp only
  have hmc : missingCanteen pd = false := by
    simp [missingCanteen, h1, h2, h3]
  by_cases h4 : truthyB (jgetT (jgetT (jgetT pd "openmensa") "canteen") "day") = true
  case neg => simp [h4]
  rw [if_neg (by simp [h4])]
  have hmd : missingDays pd = false := by simp [missingDays, h4]
  rcases h with h | h | h
  · rw [hmc] at h; exact absurd h (by simp)
  · rw [hmd] at h; exact absurd h (by simp)
  · unfold noMatchingDay at h
    split at h
    next heq => rw [heq]
    next hne => exact absurd h (by simp)

/-- C9: on any structural anomaly of the parsed feed (no openmensa.canteen
root, no day list, no day matching the requested date, or malformed nodes
that make the extraction body throw), extractMealsForDate returns the
empty list; the catch-all handler turns every thrown error into an empty
list, so no exception reaches the caller. -/
theorem extractMealsForDate_anomaly_empty (pd : JVal) (date loc : String)
    (h : StructuralAnomaly pd date loc) :
    extractMealsForDate pd date loc = [] := by
  unfold extractMealsForDate
  rcases h with h | h | h | h
  · rw [extractBody_ok_empty_of_anomaly (Or.inl h)]
  · rw [extractBody_ok_empty_of_anomaly (Or.inr (Or.inl h))]
  · rw [extractBody_ok_empty_of_anomaly (Or.inr (Or.inr h))]
  · rw [h]

/-- A feed whose only day is for a different date than the one requested. -/
def c9Feed : JVal :=
  .jobj [("openmensa", .jobj [("canteen", .jobj [("day",
    .jobj [("date", .jstr "2025-01-06"), ("category",
      .jobj [("name", .jstr "Hauptgericht"),
             ("meal", .jobj [("name", .jstr "Eintopf")])])])])])]

/-- C9 witness: requesting a date absent from the feed is a structural
anomaly and yields the empty list. -/
theorem extractMealsForDate_anomaly_empty_witness :
    StructuralAnomaly c9Feed "2025-01-07" "philturm" ∧
    extractMealsForDate c9Feed "2025-01-07" "philturm" = [] := by
  have h : StructuralAnomaly c9Feed "2025-01-07" "philturm" :=
    Or.inr (Or.inr (Or.inl (by decide)))
  exact ⟨h, extractMealsForDate_anomaly_empty _ _ _ h⟩

/-! ## Claim theorems: the meal-name cleaner -/

theorem takeWhile_all_append (p : Char → Bool) (l₁ l₂ : List Char)
    (h : ∀ c ∈ l₁, p c = true) :
    (l₁ ++ l₂).takeWhile p = l₁ ++ l₂.takeWhile p := by
  induction l₁ with
  | nil => simp
  | cons c t ih =>
    simp only [List.cons_append, List.takeWhile_cons, h c (by simp),
      ih (fun d hd => h d (by simp [hd]))]
    simp

theorem dropWhile_all_append (p : Char → Bool) (l₁ l₂ : List Char)
    (h : ∀ c ∈ l₁, p c = true) :
    (l₁ ++ l₂).dropWhile p = l₂.dropWhile p := by
  induction l₁ with
  | nil => simp
  | cons c t ih =>
    simp only [List.cons_append, List.dropWhile_cons, h c (by simp)]
    exact ih (fun d hd => h d (by simp [hd]))

theorem drop_takeWhile_len (p : Char → Bool) (l : List Char) :
    l.drop (l.takeWhile p).length = l.dropWhile p := by
  induction l with
  | nil => simp
  | cons c t ih =>
    by_cases hc : p c
    · simp [List.takeWhile_cons, List.dropWhile_cons, hc, ih]
    · simp [List.takeWhile_cons, List.dropWhile_cons, hc]

theorem tryParen_ws_cons {c : Char} (X : List Char) (hc : jsWsChar c = true) :
    tryParen (c :: X) = tryParen X := by
  unfold tryParen
  simp only [drop_takeWhile_len, List.dropWhile_cons, hc, if_true]

theorem tryParen_other_cons {c : Char} (X : List Char) (hc : jsWsChar c = false)
    (hp : c ≠ '(') : tryParen (c :: X) = none := by
  unfold tryParen
  simp only [drop_takeWhile_len, List.dropWhile_cons, hc]
  simp only [Bool.false_eq_true, if_false]
  split
  next tail heq =>
    exact absurd (List.head_eq_of_cons_eq heq.symm) (Ne.symm hp)
  next => rfl

theorem tryParen_at_match (content rest : List Char)
    (hcc : ∀ c ∈ content, parenClass c = true) (hne : content ≠ []) :
    tryParen (' ' :: '(' :: (content ++ ')' :: rest)) = some (content, rest) := by
  rw [tryParen_ws_cons _ (by decide)]
  unfold tryParen
  simp only [drop_takeWhile_len, List.dropWhile_cons]
  rw [show jsWsChar '(' = false from rfl]
  simp only [Bool.false_eq_true, if_false]
  have htw : (content ++ ')' :: rest).takeWhile parenClass = content := by
    rw [takeWhile_all_append _ _ _ hcc, List.takeWhile_cons]
    rw [show parenClass ')' = false from rfl]
    simp
  have hdw : (content ++ ')' :: rest).dropWhile parenClass = ')' :: rest := by
    rw [dropWhile_all_append _ _ _ hcc, List.dropWhile_cons]
    rw [show parenClass ')' = false from rfl]
    simp
  simp only [drop_takeWhile_len, htw, hdw]
  rw [if_neg (by simpa using hne)]

theorem getLast?_cons_ne {c d : Char} {t : List Char} (ht : t ≠ [])
    (hd : t.getLast? = some d) : (c :: t).getLast? = some d := by
  cases t with
  | nil => exact absurd rfl ht
  | cons b t' => rw [List.getLast?_cons_cons]; exact hd

theorem tryParen_skip : ∀ (l tail : List Char), l ≠ [] →
    (∀ c ∈ l, c ≠ '(') →
    (∀ c, l.getLast? = some c → jsWsChar c = false) →
    tryParen (l ++ tail) = none := by
  intro l
  induction l with
  | nil => intro tail h; exact absurd rfl h
  | cons c t ih =>
    intro tail _ hnp hlast
    by_cases hws : jsWsChar c = true
    · have htne : t ≠ [] := by
        intro hte
        subst hte
        exact absurd (hlast c rfl) (by simp [hws])
      rw [List.cons_append, tryParen_ws_cons _ hws]
      refine ih tail htne (fun d hd => hnp d (by simp [hd])) (fun d hd => ?_)
      exact hlast d (getLast?_cons_ne htne hd)
    · rw [List.cons_append,
        tryParen_other_cons _ (by simpa using hws) (hnp c (by simp))]

theorem scanClean_nil : scanClean [] = [] := rfl

theorem scanClean_append : ∀ (base tail : List Char),
    (∀ c ∈ base, c ≠ '(') →
    (∀ c, base.getLast? = some c → jsWsChar c = false) →
    scanClean (base ++ tail) = base ++ scanClean tail := by
  intro base
  induction base with
  | nil => intro tail _ _; rfl
  | cons c t ih =>
    intro tail hnp hlast
    have hskip : tryParen (c :: (t ++ tail)) = none := by
      have := tryParen_skip (c :: t) tail (by simp) hnp hlast
      rwa [List.cons_append] at this
    rw [List.cons_append, scanClean_cons, hskip]
    by_cases hte : t = []
    · subst hte; simp
    · rw [ih tail (fun d hd => hnp d (by simp [hd]))
        (fun d hd => hlast d (getLast?_cons_ne hte hd))]
      simp

theorem scanClean_tail_match (content : List Char)
    (hcc : ∀ c ∈ content, parenClass c = true) (hne : content ≠ []) :
    scanClean (' ' :: '(' :: (content ++ [')'])) = parenReplacement content := by
  rw [scanClean_cons,
    show content ++ [')'] = content ++ ')' :: [] from rfl,
    tryParen_at_match content [] hcc hne]
  simp [scanClean_nil]

/-- No two adjacent characters of the list form a bad pair. -/
def noAdjPairs (bad : Char → Char → Bool) : List Char → Bool
  | [] => true
  | [_] => true
  | a :: b :: t => !bad a b && noAdjPairs bad (b :: t)

/-- No run of two or more whitespace characters. -/
def noDoubleWs (l : List Char) : Bool :=
  noAdjPairs (fun a b => jsWsChar a && jsWsChar b) l

/-- No whitespace character directly before a comma. -/
def noWsComma (l : List Char) : Bool :=
  noAdjPairs (fun a b => jsWsChar a && b = ',') l

theorem noAdjPairs_tail {bad : Char → Char → Bool} {c : Char} {rest : List Char}
    (h : noAdjPairs bad (c :: rest) = true) : noAdjPairs bad rest = true := by
  cases rest with
  | nil => rfl
  | cons d t => exact (Bool.and_eq_true_iff.mp h).2

theorem noAdjPairs_head {bad : Char → Char → Bool} {c d : Char} {t : List Char}
    (h : noAdjPairs bad (c :: d :: t) = true) : bad c d = false := by
  have := (Bool.and_eq_true_iff.mp h).1
  simpa using this

theorem noAdjPairs_append (bad : Char → Char → Bool) :
    ∀ (l₁ l₂ : List Char), noAdjPairs bad l₁ = true → noAdjPairs bad l₂ = true →
    (∀ a b, l₁.getLast? = some a → l₂.head? = some b → bad a b = false) →
    noAdjPairs bad (l₁ ++ l₂) = true := by
  intro l₁
  induction l₁ with
  | nil => intro l₂ _ h2 _; simpa using h2
  | cons a t ih =>
    intro l₂ h1 h2 hbd
    cases t with
    | nil =>
      cases l₂ with
      | nil => rfl
      | cons b t2 =>
        have hb : bad a b = false := hbd a b rfl rfl
        simp only [List.cons_append, List.nil_append, noAdjPairs, hb]
        simpa using h2
    | cons a' t' =>
      have hh : bad a a' = false := noAdjPairs_head h1
      simp only [List.cons_append, noAdjPairs, hh]
      refine Bool.and_eq_true_iff.mpr ⟨rfl, ?_⟩
      exact ih l₂ (noAdjPairs_tail h1) h2
        (fun x y hx hy => hbd x y (getLast?_cons_ne (by simp) hx) hy)

theorem wsRunSplit_none_of {c : Char} {rest : List Char}
    (h : noDoubleWs (c :: rest) = true) : wsRunSplit (c :: rest) = none := by
  cases rest with
  | nil => rfl
  | cons d t =>
    have hb := noAdjPairs_head h
    unfold wsRunSplit
    simp [hb]

theorem collapseWsRuns_id : ∀ (l : List Char), noDoubleWs l = true →
    collapseWsRuns l = l := by
  intro l
  induction l with
  | nil => intro _; rfl
  | cons c rest ih =>
    intro h
    rw [collapseWsRuns_cons, wsRunSplit_none_of h]
    rw [ih (noAdjPairs_tail h)]

theorem wsCommaSplit_none_of {c : Char} {rest : List Char}
    (hd : noDoubleWs (c :: rest) = true) (hc : noWsComma (c :: rest) = true) :
    wsCommaSplit (c :: rest) = none := by
  unfold wsCommaSplit
  dsimp only
  by_cases hws : jsWsChar c = true
  case neg => simp [hws]
  rw [if_pos hws]
  cases rest with
  | nil => simp [List.takeWhile_cons, hws]
  | cons d t =>
    have hdd : jsWsChar d = false := by
      have := noAdjPairs_head hd
      simp only [hws, Bool.true_and] at this
      exact this
    have hdc : d ≠ ',' := by
      have := noAdjPairs_head hc
      simp only [hws, Bool.true_and] at this
      simpa using this
    have htw : (c :: d :: t).takeWhile jsWsChar = [c] := by
      simp [List.takeWhile_cons, hws, hdd]
    rw [htw]
    simp only [List.length_cons, List.length_nil, List.drop_succ_cons, List.drop_zero]
    split
    next heq => exact absurd (List.head_eq_of_cons_eq heq) hdc
    next => rfl

theorem fixCommaSpace_id : ∀ (l : List Char), noDoubleWs l = true →
    noWsComma l = true → fixCommaSpace l = l := by
  intro l
  induction l with
  | nil => intro _ _; rfl
  | cons c rest ih =>
    intro hd hc
    rw [fixCommaSpace_cons, wsCommaSplit_none_of hd hc]
    rw [ih (noAdjPairs_tail hd) (noAdjPairs_tail hc)]

theorem dropWhile_id_of_head {l : List Char} {p : Char → Bool}
    (h : ∀ c, l.head? = some c → p c = false) : l.dropWhile p = l := by
  cases l with
  | nil => rfl
  | cons c t => simp [List.dropWhile_cons, h c rfl]

theorem jsTrimList_id {l : List Char}
    (hh : ∀ c, l.head? = some c → jsWsChar c = false)
    (hl : ∀ c, l.getLast? = some c → jsWsChar c = false) : jsTrimList l = l := by
  unfold jsTrimList
  rw [dropWhile_id_of_head hh]
  rw [dropWhile_id_of_head (fun c hc => hl c (by rwa [List.head?_reverse] at hc))]
  exact List.reverse_reverse l

theorem asString_ne_empty {l : List Char} (h : l ≠ []) : l.asString ≠ "" := by
  intro hc
  apply h
  have := congrArg String.toList hc
  simpa using this

theorem head?_append_of_ne_nil {l₁ l₂ : List Char} (h : l₁ ≠ []) :
    (l₁ ++ l₂).head? = l₁.head? := by
  cases l₁ with
  | nil => exact absurd rfl h
  | cons c t => rfl

/-- C7 (amended): for a meal name of the form BASE (CONTENT) — base
non-empty, free of opening parens, not starting or ending in whitespace,
without whitespace runs or whitespace-comma pairs; content non-empty,
wholly in the parenthetical character class, without whitespace runs or
whitespace-comma pairs — cleanMealName removes the trailing parenthetical
exactly when every comma-separated token is a non-empty alphanumeric token
of at most 4 characters (the allergen-code test), and otherwise returns
the name unchanged. -/
theorem cleanMealName_trailing_paren (base content : List Char)
    (hbne : base ≠ [])
    (hnp : ∀ c ∈ base, c ≠ '(')
    (hbh : ∀ c, base.head? = some c → jsWsChar c = false)
    (hbl : ∀ c, base.getLast? = some c → jsWsChar c = false)
    (hbd : noDoubleWs base = true)
    (hbc : noWsComma base = true)
    (hcne : content ≠ [])
    (hcc : ∀ c ∈ content, parenClass c = true)
    (hcd : noDoubleWs content = true)
    (hcw : noWsComma content = true) :
    cleanMealName (base ++ ' ' :: '(' :: (content ++ [')'])).asString =
      (if isAllergenContent content = true then base
       else base ++ ' ' :: '(' :: (content ++ [')'])).asString := by
  have hLne : base ++ ' ' :: '(' :: (content ++ [')']) ≠ [] := by
    simp [hbne]
  unfold cleanMealName
  rw [if_neg (asString_ne_empty hLne)]
  have htl : (base ++ ' ' :: '(' :: (content ++ [')'])).asString.toList =
      base ++ ' ' :: '(' :: (content ++ [')']) := rfl
  rw [htl]
  rw [scanClean_append base _ hnp hbl, scanClean_tail_match content hcc hcne]
  by_cases hia : isAllergenContent content = true
  · rw [if_pos hia]
    unfold parenReplacement
    rw [if_pos hia, List.append_nil]
    rw [collapseWsRuns_id base hbd, jsTrimList_id hbh hbl,
      fixCommaSpace_id base hbd hbc]
  · rw [if_neg hia]
    unfold parenReplacement
    rw [if_neg hia]
    -- whole-list regularity
    have hparenWsD : noDoubleWs (' ' :: '(' :: (content ++ [')'])) = true := by
      have hcd2 : noDoubleWs (content ++ [')']) = true := by
        refine noAdjPairs_append _ content [')'] hcd rfl ?_
        intro a b _ hb
        simp only [List.head?_cons, Option.some_inj] at hb
        subst hb
        simp [jsWsChar]
      refine noAdjPairs_append _ [' ', '('] (content ++ [')'])
        (by decide) hcd2 ?_
      intro a b ha _
      simp only [List.getLast?_cons_cons, List.getLast?_singleton,
        Option.some_inj] at ha
      subst ha
      simp [jsWsChar]
    have hparenWsC : noWsComma (' ' :: '(' :: (content ++ [')'])) = true := by
      have hcw2 : noWsComma (content ++ [')']) = true := by
        refine noAdjPairs_append _ content [')'] hcw rfl ?_
        intro a b _ hb
        simp only [List.head?_cons, Option.some_inj] at hb
        subst hb
        simp
      refine noAdjPairs_append _ [' ', '('] (content ++ [')'])
        (by decide) hcw2 ?_
      intro a b ha _
      simp only [List.getLast?_cons_cons, List.getLast?_singleton,
        Option.some_inj] at ha
      subst ha
      simp [jsWsChar]
    have hLd : noDoubleWs (base ++ ' ' :: '(' :: (content ++ [')'])) = true := by
      refine noAdjPairs_append _ base _ hbd hparenWsD ?_
      intro a b ha hb
      simp only [List.head?_cons, Option.some_inj] at hb
      subst hb
      simp [hbl a ha]
    have hLc : noWsComma (base ++ ' ' :: '(' :: (content ++ [')'])) = true := by
      refine noAdjPairs_append _ base _ hbc hparenWsC ?_
      intro a b ha hb
      simp only [List.head?_cons, Option.some_inj] at hb
      subst hb
      simp
    have hLh : ∀ c, (base ++ ' ' :: '(' :: (content ++ [')'])).head? = some c →
        jsWsChar c = false := by
      intro c hc
      rw [head?_append_of_ne_nil hbne] at hc
      exact hbh c hc
    have hLl : ∀ c, (base ++ ' ' :: '(' :: (content ++ [')'])).getLast? = some c →
        jsWsChar c = false := by
      have h2 : (' ' :: '(' :: (content ++ [')'])).getLast? = some ')' := by
        rw [List.getLast?_cons_cons]
        rw [show '(' :: (content ++ [')']) = ('(' :: content) ++ [')'] from rfl]
        exact List.getLast?_concat _
      intro c hc
      rw [List.getLast?_append, h2] at hc
      simp only [Option.or] at hc
      injection hc with hc
      subst hc
      rfl
    rw [collapseWsRuns_id _ hLd, jsTrimList_id hLh hLl, fixCommaSpace_id _ hLd hLc]

/-! ## Reconciliation-engine lemmas -/

/-- Folding a sequence of filters equals one filter with the disjunction. -/
theorem foldl_filter {γ : Type} (gs : List γ) (p : γ → Meal → Bool) :
    ∀ s : Store,
      gs.foldl (fun st g => st.filter (fun r => !p g r)) s =
        s.filter (fun r => !gs.any (fun g => p g r)) := by
  induction gs with
  | nil => intro s; simp
  | cons g t ih =>
    intro s
    simp only [List.foldl_cons]
    rw [ih, List.filter_filter]
    apply List.filter_congr
    intro r _
    simp only [List.any_cons]
    cases p g r <;> cases t.any (fun g => p g r) <;> simp

/-- Folding a sequence of guarded filters (skipped when the guard holds)
equals one filter with the guarded disjunction. -/
theorem foldl_guard_filter {γ : Type} (gs : List γ) (c : γ → Bool)
    (p : γ → Meal → Bool) :
    ∀ s : Store,
      gs.foldl (fun st g => if c g then st else st.filter (fun r => !p g r)) s =
        s.filter (fun r => !gs.any (fun g => !c g && p g r)) := by
  induction gs with
  | nil => intro s; simp
  | cons g t ih =>
    intro s
    simp only [List.foldl_cons]
    by_cases hc : c g = true
    · rw [if_pos hc, ih]
      apply List.filter_congr
      intro r _
      simp only [List.any_cons, hc, Bool.not_true, Bool.false_and,
        Bool.false_or]
    · rw [if_neg hc, ih, List.filter_filter]
      have hcf : c g = false := by simpa using hc
      apply List.filter_congr
      intro r _
      simp only [List.any_cons, hcf, Bool.not_false, Bool.true_and]
      cases p g r <;> cases t.any (fun g => !c g && p g r) <;> simp

/-- The combined row-deletion predicate of the three cleanup steps of a
batch: a row is removed exactly when some philturm-date DELETE, some
pastabar-group DELETE (with a non-empty kept list), or some empty-group
DELETE matches it. -/
def delAny (b : List Meal) (r : Meal) : Bool :=
  (philturmDates b).any (fun d => philturmDelCond d r) ||
  (pastaGroups b).any (fun g => !g.2.2.isEmpty && pastaDelCond g.1 g.2.1 g.2.2 r) ||
  (emptyGroups (b.filter isMealEmpty)).any (fun g => emptyDelCond g r)

theorem afterCleanups_eq_filter (b : List Meal) (s : Store) :
    afterCleanups b s = s.filter (fun r => !delAny b r) := by
  unfold afterCleanups cleanupPhilturmStore cleanupPastaStore cleanupEmptyStore
  rw [foldl_filter, foldl_guard_filter, foldl_filter, List.filter_filter,
    List.filter_filter]
  apply List.filter_congr
  intro r _
  unfold delAny
  cases h1 : (philturmDates b).any (fun d => philturmDelCond d r) <;>
  cases h2 : (pastaGroups b).any
      (fun g => !g.2.2.isEmpty && pastaDelCond g.1 g.2.1 g.2.2 r) <;>
  cases h3 : (emptyGroups (b.filter isMealEmpty)).any (fun g => emptyDelCond g r) <;>
  simp [h1, h2, h3]

/-- The NOT NULL columns assigned by the upsert statement. -/
def notNullOk (m : Meal) : Bool :=
  m.name.isSome && m.date.isSome && m.mensa_location.isSome

/-- The row-update function of the ON CONFLICT DO UPDATE branch. -/
def updRow (x : String) (m : Meal) (r : Meal) : Meal :=
  if r.external_id == some x then m else r

theorem upsertOne_cases {s : Store} {m : Meal} {s₀ : Store}
    (h : upsertOne s m = .ok s₀) :
    notNullOk m = true ∧
    ((∃ x, m.external_id = some x ∧
        s.any (fun r => r.external_id == some x) = true ∧
        s₀ = s.map (updRow x m)) ∨
     (s₀ = s ++ [m] ∧
      (∀ x, m.external_id = some x →
        s.any (fun r => r.external_id == some x) = false))) := by
  unfold upsertOne at h
  split at h
  next => exact absurd h (by simp)
  next hnn =>
    simp only [Bool.or_eq_true, decide_eq_true_eq, not_or] at hnn
    obtain ⟨⟨h1, h2⟩, h3⟩ := hnn
    have hok : notNullOk m = true := by
      unfold notNullOk
      simp [Option.isSome_iff_ne_none, h1, h2, h3]
    refine ⟨hok, ?_⟩
    split at h
    next x hx =>
      split at h
      next hany =>
        injection h with h
        exact Or.inl ⟨x, hx, hany, h.symm⟩
      next hany =>
        injection h with h
        refine Or.inr ⟨h.symm, ?_⟩
        intro y hy
        rw [hy] at hx
        injection hx with hx
        subst hx
        simpa using hany
    next hx =>
      injection h with h
      refine Or.inr ⟨h.symm, ?_⟩
      intro y hy
      rw [hx] at hy
      exact absurd hy (by simp)

theorem upsertOne_ok {s : Store} {m : Meal} (h : notNullOk m = true) :
    ∃ s₀, upsertOne s m = .ok s₀ := by
  unfold notNullOk at h
  simp only [Bool.and_eq_true, Option.isSome_iff_ne_none] at h
  unfold upsertOne
  rw [if_neg (by simp [h.1.1, h.1.2, h.2])]
  split
  next x hx =>
    by_cases hany : s.any (fun r => r.external_id == some x) = true
    · rw [if_pos hany]; exact ⟨_, rfl⟩
    · rw [if_neg hany]; exact ⟨_, rfl⟩
  next => exact ⟨_, rfl⟩

theorem upsertAll_ok : ∀ (V : List Meal) (s : Store),
    (∀ m ∈ V, notNullOk m = true) → ∃ s', upsertAll s V = .ok s' := by
  intro V
  induction V with
  | nil => intro s _; exact ⟨s, rfl⟩
  | cons m t ih =>
    intro s h
    obtain ⟨s₀, h₀⟩ := @upsertOne_ok s m (h m (by simp))
    obtain ⟨s', h'⟩ := ih s₀ (fun m' hm' => h m' (by simp [hm']))
    exact ⟨s', by unfold upsertAll; rw [h₀]; exact h'⟩

theorem upsertAll_ok_inv : ∀ (V : List Meal) (s s' : Store),
    upsertAll s V = .ok s' → ∀ m ∈ V, notNullOk m = true := by
  intro V
  induction V with
  | nil => intro s s' _ m hm; simp at hm
  | cons m0 t ih =>
    intro s s' h m hm
    unfold upsertAll at h
    cases h₀ : upsertOne s m0 with
    | error e => rw [h₀] at h; exact absurd h (by simp)
    | ok s₀ =>
      rw [h₀] at h
      rcases List.mem_cons.mp hm with hm | hm
      · subst hm; exact (upsertOne_cases h₀).1
      · exact ih s₀ s' h m hm

theorem upsertAll_mem : ∀ (V : List Meal) (s s' : Store) (r : Meal),
    upsertAll s V = .ok s' → r ∈ s' → r ∈ s ∨ r ∈ V := by
  intro V
  induction V with
  | nil =>
    intro s s' r h hr
    unfold upsertAll at h
    injection h with h
    subst h
    exact Or.inl hr
  | cons m t ih =>
    intro s s' r h hr
    unfold upsertAll at h
    cases h₀ : upsertOne s m with
    | error e => rw [h₀] at h; exact absurd h (by simp)
    | ok s₀ =>
      rw [h₀] at h
      rcases ih s₀ s' r h hr with hr₀ | hrt
      · obtain ⟨_, hcase⟩ := upsertOne_cases h₀
        rcases hcase with ⟨x, _, _, hmap⟩ | ⟨happ, _⟩
        · subst hmap
          obtain ⟨u, hu, hur⟩ := List.mem_map.mp hr₀
          unfold updRow at hur
          by_cases hid : u.external_id == some x
          · rw [if_pos hid] at hur; subst hur; exact Or.inr (by simp)
          · rw [if_neg hid] at hur; subst hur; exact Or.inl hu
        · subst happ
          rcases List.mem_append.mp hr₀ with hu | hu
          · exact Or.inl hu
          · simp at hu; subst hu; exact Or.inr (by simp)
      · exact Or.inr (by simp [hrt])

/-- countP is preserved by the conflict update: the update rewrites rows
without changing which rows carry which external_id-keyed predicate, for
predicates depending only on data the update keeps equal. -/
theorem countP_map_updRow (s : Store) (x : String) (m : Meal)
    (hm : m.external_id = some x) (y : String) :
    (s.map (updRow x m)).countP (fun r => r.external_id == some y) =
      s.countP (fun r => r.external_id == some y) := by
  rw [List.countP_map]
  apply List.countP_congr
  intro u _
  unfold updRow
  by_cases hid : u.external_id == some x
  · simp only [Function.comp, hid, if_pos]
    have : u.external_id = some x := by simpa using hid
    rw [hm, this]
  · simp only [Function.comp, hid, if_neg]
    rfl

theorem upsertOne_unique {s : Store} {m : Meal} {s₀ : Store}
    (h : upsertOne s m = .ok s₀) (hu : UniqueIds s) : UniqueIds s₀ := by
  obtain ⟨_, hcase⟩ := upsertOne_cases h
  rcases hcase with ⟨x, hx, _, hmap⟩ | ⟨happ, hany⟩
  · subst hmap
    intro y
    rw [show (fun r : Meal => r.external_id == some y) =
      (fun r => r.external_id == some y) from rfl]
    rw [countP_map_updRow s x m hx y]
    exact hu y
  · subst happ
    intro y
    rw [List.countP_append]
    by_cases hidy : m.external_id = some y
    · have h0 : s.countP (fun r => r.external_id == some y) = 0 := by
        rw [List.countP_eq_zero]
        intro u hu'
        have := hany y hidy
        rw [List.any_eq_false] at this
        exact this u hu'
      simp [h0, List.countP_cons, hidy]
    · have h1 : ([m]).countP (fun r => r.external_id == some y) = 0 := by
        simp [List.countP_cons, hidy]
      rw [h1]
      simpa using hu y

theorem upsertAll_unique : ∀ (V : List Meal) (s s' : Store),
    upsertAll s V = .ok s' → UniqueIds s → UniqueIds s' := by
  intro V
  induction V with
  | nil =>
    intro s s' h hu
    unfold upsertAll at h
    injection h with h
    subst h
    exact hu
  | cons m t ih =>
    intro s s' h hu
    unfold upsertAll at h
    cases h₀ : upsertOne s m with
    | error e => rw [h₀] at h; exact absurd h (by simp)
    | ok s₀ =>
      rw [h₀] at h
      exact ih s₀ s' h (upsertOne_unique h₀ hu)

theorem filter_unique {s : Store} (p : Meal → Bool) (hu : UniqueIds s) :
    UniqueIds (s.filter p) := by
  intro y
  exact le_trans ((List.filter_sublist s).countP_le _) (hu y)

/-- The meal that ends up stored under external_id x after upserting the
batch's valid meals in order: the last valid meal carrying that id. -/
def lastUp (V : List Meal) (x : String) : Option Meal :=
  V.reverse.find? (fun m => m.external_id == some x)

theorem lastUp_cons (m : Meal) (t : List Meal) (x : String) :
    lastUp (m :: t) x =
      (lastUp t x).or (if m.external_id == some x then some m else none) := by
  unfold lastUp
  rw [List.reverse_cons, List.find?_append]
  by_cases h : m.external_id = some x
  · have hb : (m.external_id == some x) = true := by simp [h]
    simp [List.find?, hb, h]
  · have hb : (m.external_id == some x) = false := beq_false_of_ne h
    simp [List.find?, hb, h]

theorem lastUp_none_of (t : List Meal) (x : String)
    (h : ∀ m ∈ t, m.external_id ≠ some x) : lastUp t x = none := by
  unfold lastUp
  rw [List.find?_eq_none]
  intro u hu
  simp [h u (List.mem_reverse.mp hu)]

theorem lastUp_some_mem {t : List Meal} {x : String} {m : Meal}
    (h : lastUp t x = some m) : m ∈ t ∧ m.external_id = some x := by
  unfold lastUp at h
  refine ⟨List.mem_reverse.mp (List.mem_of_find?_eq_some h), ?_⟩
  have := List.find?_some h
  simpa using this

theorem count_map_updRow_of_ne {s : Store} {x : String} {m0 r : Meal}
    (hm : m0.external_id = some x) (hne : r.external_id ≠ some x) :
    (s.map (updRow x m0)).count r = s.count r := by
  show (s.map (updRow x m0)).countP (fun u => u == r) = s.countP (fun u => u == r)
  rw [List.countP_map]
  apply List.countP_congr
  intro u _
  simp only [Function.comp_apply]
  have hb : (updRow x m0 u == r) = (u == r) := by
    unfold updRow
    by_cases hid : u.external_id == some x
    · rw [if_pos hid]
      have hm0r : (m0 == r) = false := by
        apply beq_false_of_ne
        intro hc
        subst hc
        exact hne hm
      have hur : (u == r) = false := by
        apply beq_false_of_ne
        intro hc
        subst hc
        exact hne (by simpa using hid)
      rw [hm0r, hur]
    · rw [if_neg hid]
  rw [hb]

theorem count_map_updRow_self {s : Store} {x : String} {m0 : Meal}
    (hm : m0.external_id = some x) (hu : UniqueIds s)
    (hany : s.any (fun r => r.external_id == some x) = true) :
    (s.map (updRow x m0)).count m0 = 1 := by
  have hcong : (s.map (updRow x m0)).count m0 =
      s.countP (fun u => u.external_id == some x) := by
    show (s.map (updRow x m0)).countP (fun u => u == m0) = _
    rw [List.countP_map]
    apply List.countP_congr
    intro u _
    simp only [Function.comp_apply]
    have hb : (updRow x m0 u == m0) = (u.external_id == some x) := by
      unfold updRow
      by_cases hid : u.external_id == some x
      · rw [if_pos hid, hid]
        simp
      · rw [if_neg hid]
        have hur : (u == m0) = false := by
          apply beq_false_of_ne
          intro hc
          subst hc
          rw [hm] at hid
          simp at hid
        rw [hur]
        simp only [hid]
    rw [hb]
  rw [hcong]
  refine Nat.le_antisymm (hu x) ?_
  rw [Nat.succ_le_iff, List.countP_pos_iff]
  rw [List.any_eq_true] at hany
  obtain ⟨u, hu', hp⟩ := hany
  exact ⟨u, hu', hp⟩

theorem count_map_updRow_zero {s : Store} {x : String} {m0 r : Meal}
    (hm : m0.external_id = some x) (hrx : r.external_id = some x)
    (hne : r ≠ m0) : (s.map (updRow x m0)).count r = 0 := by
  show (s.map (updRow x m0)).countP (fun u => u == r) = 0
  rw [List.countP_map, List.countP_eq_zero]
  intro u _
  show ¬ (updRow x m0 u == r) = true
  unfold updRow
  by_cases hid : u.external_id == some x
  · rw [if_pos hid]
    simp only [beq_iff_eq]
    exact fun hc => hne hc.symm
  · rw [if_neg hid]
    simp only [beq_iff_eq]
    intro hc
    subst hc
    rw [hrx] at hid
    simp at hid

theorem count_eq_zero_of_no_id {s : Store} {x : String} {r : Meal}
    (hrx : r.external_id = some x)
    (hany : s.any (fun u => u.external_id == some x) = false) :
    s.count r = 0 := by
  have hle : s.count r ≤ s.countP (fun u => u.external_id == some x) := by
    apply List.countP_mono_left
    intro u _ hur
    have : u = r := by simpa using hur
    subst this
    simp [hrx]
  have h0 : s.countP (fun u => u.external_id == some x) = 0 := by
    rw [List.countP_eq_zero]
    rw [List.any_eq_false] at hany
    exact hany
  omega

theorem count_append_single (s : Store) (m r : Meal) :
    (s ++ [m]).count r = s.count r + if r = m then 1 else 0 := by
  rw [List.count_append]
  by_cases h : r = m
  · subst h; simp
  · simp [List.count_singleton', h]

theorem lastUp_cons_of_some {t : List Meal} {x : String} {m' : Meal}
    (m : Meal) (h : lastUp t x = some m') : lastUp (m :: t) x = some m' := by
  unfold lastUp at h ⊢
  rw [List.reverse_cons, List.find?_append, h]
  rfl

theorem lastUp_cons_self {t : List Meal} {x : String} (m : Meal)
    (hm : m.external_id = some x) (hn : lastUp t x = none) :
    lastUp (m :: t) x = some m := by
  unfold lastUp at hn ⊢
  rw [List.reverse_cons, List.find?_append, hn]
  have hb : (m.external_id == some x) = true := by simp [hm]
  simp [List.find?, hb]

theorem lastUp_cons_of_ne {t : List Meal} {x : String} (m : Meal)
    (hm : m.external_id ≠ some x) : lastUp (m :: t) x = lastUp t x := by
  unfold lastUp
  rw [List.reverse_cons, List.find?_append]
  have hb : (m.external_id == some x) = false := beq_false_of_ne hm
  simp [List.find?, hb]

/-- The count of each row value after the upsert loop: a row keyed by an
id the batch writes occurs exactly once iff it is the last written value
for that id; every other row keeps its prior multiplicity. -/
theorem upsertAll_count : ∀ (V : List Meal) (s s' : Store),
    UniqueIds s → (∀ m ∈ V, m.external_id ≠ none) →
    upsertAll s V = .ok s' →
    ∀ r : Meal,
      s'.count r =
        (match r.external_id with
         | none => s.count r
         | some x =>
           match lastUp V x with
           | some m => if r = m then 1 else 0
           | none => s.count r) := by
  intro V
  induction V with
  | nil =>
    intro s s' _ _ h r
    unfold upsertAll at h
    injection h with h
    subst h
    cases hr : r.external_id <;> simp [lastUp, List.find?]
  | cons m0 t ih =>
    intro s s' hu hids h r
    unfold upsertAll at h
    cases h₀ : upsertOne s m0 with
    | error e => rw [h₀] at h; exact absurd h (by simp)
    | ok s₀ =>
      rw [h₀] at h
      obtain ⟨xm, hxm⟩ : ∃ xm, m0.external_id = some xm := by
        cases hm0 : m0.external_id with
        | none => exact absurd hm0 (hids m0 (by simp))
        | some y => exact ⟨y, rfl⟩
      have hu₀ : UniqueIds s₀ := upsertOne_unique h₀ hu
      have ihr := ih s₀ s' hu₀ (fun m' hm' => hids m' (by simp [hm'])) h r
      obtain ⟨_, hcase⟩ := upsertOne_cases h₀
      cases hr : r.external_id with
      | none =>
        simp only [hr] at ihr ⊢
        rw [ihr]
        rcases hcase with ⟨x, hx, _, hmap⟩ | ⟨happ, _⟩
        · subst hmap
          exact count_map_updRow_of_ne hx (by rw [hr]; exact fun hc => by cases hc)
        · subst happ
          rw [count_append_single]
          have hrne : r ≠ m0 := by
            intro hc
            subst hc
            rw [hr] at hxm
            cases hxm
          simp [hrne]
      | some x =>
        simp only [hr] at ihr ⊢
        cases hlt : lastUp t x with
        | some m' =>
          simp only [hlt] at ihr
          rw [lastUp_cons_of_some m0 hlt]
          exact ihr
        | none =>
          simp only [hlt] at ihr
          by_cases hxx : xm = x
          · subst hxx
            rw [lastUp_cons_self m0 hxm hlt]
            show s'.count r = if r = m0 then 1 else 0
            rw [ihr]
            rcases hcase with ⟨y, hy, hany, hmap⟩ | ⟨happ, hany⟩
            · have hyx : y = xm := by
                rw [hxm] at hy; injection hy with hy; exact hy.symm
              subst hyx
              by_cases hr0 : r = m0
              · subst hr0
                rw [if_pos rfl, hmap]
                exact count_map_updRow_self hy hu hany
              · rw [if_neg hr0, hmap]
                exact count_map_updRow_zero hy hr hr0
            · subst happ
              rw [count_append_single]
              rw [count_eq_zero_of_no_id hr (hany xm hxm)]
              simp
          · have hm0ne : m0.external_id ≠ some x := by
              rw [hxm]
              intro hc
              injection hc with hc
              exact hxx hc
            rw [lastUp_cons_of_ne m0 hm0ne, hlt]
            show s'.count r = s.count r
            rw [ihr]
            rcases hcase with ⟨y, hy, _, hmap⟩ | ⟨happ, _⟩
            · have hyx : y = xm := by
                rw [hxm] at hy; injection hy with hy; exact hy.symm
              subst hyx
              subst hmap
              refine count_map_updRow_of_ne hy ?_
              rw [hr]
              intro hc
              injection hc with hc
              exact hxx hc.symm
            · subst happ
              rw [count_append_single]
              have hrne : r ≠ m0 := by
                intro hc
                subst hc
                rw [hr] at hxm
                injection hxm with hxm
                exact hxx hxm.symm
              simp [hrne]

theorem count_filter_eq (r : Meal) (p : Meal → Bool) (l : Store) :
    (l.filter p).count r = if p r = true then l.count r else 0 := by
  induction l with
  | nil => simp
  | cons u t ih =>
    rw [List.filter_cons]
    by_cases hur : r = u
    · subst hur
      by_cases hu : p r = true
      · rw [if_pos hu, List.count_cons, ih, if_pos hu, List.count_cons]
        simp
        rw [if_pos hu]
      · rw [if_neg hu, ih, if_neg hu, if_neg hu]
    · have hb : (u == r) = false := beq_false_of_ne (fun hc => hur hc.symm)
      by_cases hu : p u = true
      · rw [if_pos hu, List.count_cons, hb, ih]
        split <;> simp [List.count_cons, hb]
      · rw [if_neg hu, ih]
        simp [List.count_cons, hb]

/-- C5: external_id uniqueness is an invariant of upsertMeals, the sole
mutation path of the meals table: if the initial store has at most one row
per non-NULL external_id, so does the store after any successful batch —
re-ingesting an existing external_id updates the row in place and never
creates a second row for that id. -/
theorem upsertMeals_unique (b : List Meal) (s s' : Store) (tr : List Stmt)
    (hu : UniqueIds s) (h : upsertMeals b s = .ok (s', tr)) : UniqueIds s' := by
  unfold upsertMeals at h
  by_cases hb : b.isEmpty
  · rw [if_pos hb] at h
    injection h with h
    rw [Prod.mk.injEq] at h
    rw [← h.1]
    exact hu
  · rw [if_neg hb] at h
    have hu3 : UniqueIds (afterCleanups b s) := by
      rw [afterCleanups_eq_filter]
      exact filter_unique _ hu
    by_cases hv : (b.filter (fun m => !isMealEmpty m)).isEmpty
    · rw [if_pos hv] at h
      injection h with h
      rw [Prod.mk.injEq] at h
      rw [← h.1]
      exact hu3
    · rw [if_neg hv] at h
      cases hall : upsertAll (afterCleanups b s) (b.filter (fun m => !isMealEmpty m)) with
      | error e => rw [hall] at h; exact absurd h (by simp)
      | ok s₄ =>
        rw [hall] at h
        injection h with h
        rw [Prod.mk.injEq] at h
        rw [← h.1]
        exact upsertAll_unique _ _ _ hall hu3

/-- A sample valid meal used by the uniqueness witness. -/
def sampleMeal : Meal :=
  { external_id := some "blattwerk_2025-01-06_Eintopf"
    name := some "Eintopf"
    category := some "Hauptgericht"
    date := some "2025-01-06"
    mensa_location := some "blattwerk"
    price_student := none
    price_employee := none
    price_other := none
    notes := some "" }

/-- C5 witness: ingesting one meal into an empty store yields a store that
still satisfies the uniqueness invariant. -/
theorem upsertMeals_unique_witness :
    UniqueIds [] ∧
    upsertMeals [sampleMeal] [] = .ok ([sampleMeal], [.upsert sampleMeal]) ∧
    UniqueIds [sampleMeal] := by
  have hu : UniqueIds ([] : Store) := fun x => by simp
  have h2 : upsertMeals [sampleMeal] [] =
      .ok ([sampleMeal], [.upsert sampleMeal]) := by rfl
  exact ⟨hu, h2, upsertMeals_unique _ _ _ _ hu h2⟩

theorem filter_idem (p : Meal → Bool) (l : Store) :
    (l.filter p).filter p = l.filter p := by
  rw [List.filter_filter]
  apply List.filter_congr
  intro a _
  cases p a <;> simp

/-- C1: idempotence of ingestion.  For every batch of canonical meals
(each non-empty batch meal carrying an external_id, as the data model
derives one for every meal) and every store satisfying the table's
uniqueness constraint, if upsertMeals(batch) succeeds and produces store
s₁, then running upsertMeals(batch) again succeeds and leaves the stored
rows unchanged: the second result is a permutation of s₁ (the meals table
is a row set keyed by external_id; row order carries no meaning). -/
theorem upsertMeals_idempotent (b : List Meal) (s s₁ : Store) (tr₁ : List Stmt)
    (hu : UniqueIds s)
    (hids : ∀ m ∈ b, isMealEmpty m = false → m.external_id ≠ none)
    (h1 : upsertMeals b s = .ok (s₁, tr₁)) :
    ∃ s₂ tr₂, upsertMeals b s₁ = .ok (s₂, tr₂) ∧ s₂.Perm s₁ := by
  unfold upsertMeals at h1
  by_cases hb : b.isEmpty
  · rw [if_pos hb] at h1
    injection h1 with h1
    rw [Prod.mk.injEq] at h1
    refine ⟨s₁, [], ?_, List.Perm.refl _⟩
    unfold upsertMeals
    rw [if_pos hb]
  · rw [if_neg hb] at h1
    by_cases hv : (b.filter (fun m => !isMealEmpty m)).isEmpty
    · rw [if_pos hv] at h1
      injection h1 with h1
      rw [Prod.mk.injEq] at h1
      have hs₁ : s₁ = afterCleanups b s := h1.1.symm
      have hclean : afterCleanups b s₁ = s₁ := by
        rw [hs₁, afterCleanups_eq_filter, afterCleanups_eq_filter, filter_idem]
      refine ⟨s₁, cleanTrace b, ?_, List.Perm.refl _⟩
      unfold upsertMeals
      rw [if_neg hb, if_pos hv, hclean]
    · rw [if_neg hv] at h1
      cases hall : upsertAll (afterCleanups b s) (b.filter (fun m => !isMealEmpty m)) with
      | error e => rw [hall] at h1; exact absurd h1 (by simp)
      | ok s₄ =>
        rw [hall] at h1
        injection h1 with h1
        rw [Prod.mk.injEq] at h1
        rw [h1.1] at hall
        have hVids : ∀ m ∈ b.filter (fun m => !isMealEmpty m),
            m.external_id ≠ none := by
          intro m hm
          rw [List.mem_filter] at hm
          exact hids m hm.1 (by simpa using hm.2)
        have hnn : ∀ m ∈ b.filter (fun m => !isMealEmpty m), notNullOk m = true :=
          upsertAll_ok_inv _ _ _ hall
        obtain ⟨s₂, hall2⟩ := upsertAll_ok _ (afterCleanups b s₁) hnn
        have hu3 : UniqueIds (afterCleanups b s) := by
          rw [afterCleanups_eq_filter]; exact filter_unique _ hu
        have hu1 : UniqueIds s₁ := upsertAll_unique _ _ _ hall hu3
        have hu3' : UniqueIds (afterCleanups b s₁) := by
          rw [afterCleanups_eq_filter]; exact filter_unique _ hu1
        refine ⟨s₂, cleanTrace b ++
          (b.filter (fun m => !isMealEmpty m)).map .upsert, ?_, ?_⟩
        · unfold upsertMeals
          rw [if_neg hb, if_neg hv, hall2]
        · rw [List.perm_iff_count]
          intro r
          have hc1 := upsertAll_count _ _ _ hu3 hVids hall r
          have hc2 := upsertAll_count _ _ _ hu3' hVids hall2 r
          have hf1 : (afterCleanups b s).count r =
              if (!delAny b r) = true then s.count r else 0 := by
            rw [afterCleanups_eq_filter, count_filter_eq]
          have hf2 : (afterCleanups b s₁).count r =
              if (!delAny b r) = true then s₁.count r else 0 := by
            rw [afterCleanups_eq_filter, count_filter_eq]
          cases hr : r.external_id with
          | none =>
            simp only [hr] at hc1 hc2
            rw [hc2, hf2, hc1, hf1]
            by_cases hp : (!delAny b r) = true
            · rw [if_pos hp, if_pos hp]
            · rw [if_neg hp, if_neg hp]
          | some x =>
            simp only [hr] at hc1 hc2
            cases hlt : lastUp (b.filter (fun m => !isMealEmpty m)) x with
            | some m =>
              simp only [hlt] at hc1 hc2
              rw [hc1, hc2]
            | none =>
              simp only [hlt] at hc1 hc2
              rw [hc2, hf2, hc1, hf1]
              by_cases hp : (!delAny b r) = true
              · rw [if_pos hp, if_pos hp]
              · rw [if_neg hp, if_neg hp]

/-- C1 witness: re-ingesting a one-meal batch after a successful first
ingestion succeeds and leaves the same single stored row. -/
theorem upsertMeals_idempotent_witness :
    UniqueIds [] ∧
    (∀ m ∈ [sampleMeal], isMealEmpty m = false → m.external_id ≠ none) ∧
    (∃ s₂ tr₂, upsertMeals [sampleMeal] [sampleMeal] = .ok (s₂, tr₂) ∧
      s₂.Perm [sampleMeal]) := by
  have hu : UniqueIds ([] : Store) := fun x => by simp
  have hids : ∀ m ∈ [sampleMeal], isMealEmpty m = false →
      m.external_id ≠ none := by decide
  have h1 : upsertMeals [sampleMeal] [] =
      .ok ([sampleMeal], [.upsert sampleMeal]) := by rfl
  exact ⟨hu, hids, upsertMeals_idempotent [sampleMeal] [] [sampleMeal] _ hu hids h1⟩

/-! ## Pastabar rotation (C3) machinery -/

theorem toNat_ofNat_small {n : Nat} (h : n < 0xd800) : (Char.ofNat n).toNat = n := by
  unfold Char.ofNat
  rw [dif_pos (Or.inl h)]
  rfl

/-- The extra folding JavaScript toLowerCase performs beyond the ASCII
range (on the characters modelled here). -/
def extraFold (c : Char) : Char :=
  if c = 'Ä' then 'ä' else if c = 'Ö' then 'ö' else if c = 'Ü' then 'ü' else c

theorem jsLowerChar_comp (c : Char) :
    jsLowerChar c = extraFold (asciiLowerChar c) := by
  by_cases hA : c = 'Ä'
  · subst hA; decide
  by_cases hO : c = 'Ö'
  · subst hO; decide
  by_cases hU : c = 'Ü'
  · subst hU; decide
  have hjs : jsLowerChar c = asciiLowerChar c := by
    unfold jsLowerChar
    rw [if_neg hA, if_neg hO, if_neg hU]
  rw [hjs]
  have hne : asciiLowerChar c ≠ 'Ä' ∧ asciiLowerChar c ≠ 'Ö' ∧
      asciiLowerChar c ≠ 'Ü' := by
    unfold asciiLowerChar
    by_cases hr : ('A' ≤ c && c ≤ 'Z') = true
    · rw [if_pos hr]
      have hle : c ≤ 'Z' := of_decide_eq_true (Bool.and_eq_true_iff.mp hr).2
      have h90 : c.toNat ≤ 90 := by
        rw [Char.le_def] at hle
        exact hle
      refine ⟨?_, ?_, ?_⟩
      · intro hc
        have h2 := congrArg Char.toNat hc
        rw [toNat_ofNat_small (by omega)] at h2
        rw [show Char.toNat 'Ä' = 196 from rfl] at h2
        omega
      · intro hc
        have h2 := congrArg Char.toNat hc
        rw [toNat_ofNat_small (by omega)] at h2
        rw [show Char.toNat 'Ö' = 214 from rfl] at h2
        omega
      · intro hc
        have h2 := congrArg Char.toNat hc
        rw [toNat_ofNat_small (by omega)] at h2
        rw [show Char.toNat 'Ü' = 220 from rfl] at h2
        omega
    · rw [if_neg hr]
      exact ⟨hA, hO, hU⟩
  unfold extraFold
  rw [if_neg hne.1, if_neg hne.2.1, if_neg hne.2.2]

theorem toList_append (a b : String) : (a ++ b).toList = a.toList ++ b.toList := by
  simp [String.toList, String.data_append]

theorem asString_toList (s : String) : s.toList.asString = s := by
  cases s; rfl

/-- A SQL LIKE match on the pattern Pasta implies the JavaScript
lower-case test of cleanupPastabar: the ASCII fold already exposes every
occurrence of pasta, and the additional umlaut folding of toLowerCase
cannot remove it. -/
theorem likeSub_pasta_js {c : String} (h : likeSub "Pasta" (some c) = true) :
    c ≠ "" ∧ strIncludes "pasta" (jsLower c) = true := by
  unfold likeSub at h
  rw [show asciiLower "Pasta" = "pasta" from rfl] at h
  unfold strIncludes at h ⊢
  rw [decide_eq_true_iff] at h
  have hmap : (asciiLower c).toList = c.toList.map asciiLowerChar := rfl
  rw [hmap] at h
  have hjs : (jsLower c).toList = (c.toList.map asciiLowerChar).map extraFold := by
    show c.toList.map jsLowerChar = _
    rw [List.map_map]
    exact List.map_congr_left (fun x _ => jsLowerChar_comp x)
  constructor
  · intro hce
    subst hce
    have := h.length_le
    simp at this
  · rw [decide_eq_true_iff, hjs]
    have h2 := h.map extraFold
    rw [show ("pasta".toList.map extraFold) = "pasta".toList from rfl] at h2
    exact h2

theorem dedupFirst_aux {x : String} :
    ∀ (l acc : List String), (x ∈ acc ∨ x ∈ l) →
      x ∈ l.foldl (fun acc y => if acc.contains y then acc else acc ++ [y]) acc := by
  intro l
  induction l with
  | nil =>
    intro acc h
    rcases h with h | h
    · exact h
    · simp at h
  | cons y t ih =>
    intro acc h
    simp only [List.foldl_cons]
    rcases h with h | h
    · apply ih
      left
      by_cases hc : acc.contains y = true
      · rw [if_pos hc]; exact h
      · rw [if_neg hc]; exact List.mem_append_left _ h
    · rcases List.mem_cons.mp h with h | h
      · subst h
        apply ih
        left
        by_cases hc : acc.contains x = true
        · rw [if_pos hc]; simpa using hc
        · rw [if_neg hc]; simp
      · exact ih _ (Or.inr h)

theorem dedupFirst_mem {x : String} {l : List String} (h : x ∈ l) :
    x ∈ dedupFirst l :=
  dedupFirst_aux l [] (Or.inr h)

theorem splitChar_ne_nil (sep : Char) : ∀ (l : List Char), splitChar sep l ≠ [] := by
  intro l
  cases l with
  | nil => simp [splitChar]
  | cons c t =>
    unfold splitChar
    cases splitChar sep t with
    | nil => simp
    | cons h2 t2 => by_cases hc : c = sep <;> simp [hc]

theorem splitChar_not_mem {sep : Char} :
    ∀ {l : List Char}, sep ∉ l → splitChar sep l = [l] := by
  intro l
  induction l with
  | nil => intro _; rfl
  | cons c t ih =>
    intro h
    unfold splitChar
    rw [ih (fun hc => h (by simp [hc]))]
    have hcs : c ≠ sep := fun hc => h (by simp [hc])
    simp [hcs]

theorem splitChar_append {sep : Char} :
    ∀ {l₁ : List Char} (l₂ : List Char), sep ∉ l₁ →
      splitChar sep (l₁ ++ sep :: l₂) = l₁ :: splitChar sep l₂ := by
  intro l₁
  induction l₁ with
  | nil =>
    intro l₂ _
    show splitChar sep (sep :: l₂) = [] :: splitChar sep l₂
    conv_lhs => unfold splitChar
    cases hs : splitChar sep l₂ with
    | nil => exact absurd hs (splitChar_ne_nil sep l₂)
    | cons h2 t2 => simp
  | cons c t ih =>
    intro l₂ h
    show splitChar sep (c :: (t ++ sep :: l₂)) = (c :: t) :: splitChar sep l₂
    conv_lhs => unfold splitChar
    rw [ih l₂ (fun hc => h (by simp [hc]))]
    have hcs : c ≠ sep := fun hc => h (by simp [hc])
    simp [hcs]

theorem splitKey_append {v d : String} (hv : '|' ∉ v.toList)
    (hd : '|' ∉ d.toList) : splitKey (v ++ "|" ++ d) = (v, d) := by
  unfold splitKey splitBar
  have htl : (v ++ "|" ++ d).toList = v.toList ++ '|' :: d.toList := by
    rw [toList_append, toList_append]
    simp
  rw [htl, splitChar_append _ hv, splitChar_not_mem hd]
  simp only [List.map_cons, List.map_nil]
  rw [show v.toList.asString = v from asString_toList v,
    show d.toList.asString = d from asString_toList d]
  rfl

theorem pastaGroups_mem {b : List Meal} {pm : Meal} {v d : String}
    (hpm : pm ∈ b) (hp : isPastaMeal pm = true)
    (hloc : pm.mensa_location = some v) (hdate : pm.date = some d)
    (hv : '|' ∉ v.toList) (hd : '|' ∉ d.toList) :
    (v, d, ((b.filter isPastaMeal).filter
      (fun m => m.mensa_location == some v && m.date == some d)).map
        (·.external_id)) ∈ pastaGroups b := by
  unfold pastaGroups
  have hkey : pastaKey pm = v ++ "|" ++ d := by
    unfold pastaKey jsTemplateOpt
    rw [hloc, hdate]
    rfl
  apply List.mem_map.mpr
  refine ⟨pastaKey pm, ?_, ?_⟩
  · exact dedupFirst_mem
      (List.mem_map_of_mem _ (List.mem_filter.mpr ⟨hpm, hp⟩))
  · rw [hkey, splitKey_append hv hd]

/-- C3: pastabar rotation.  For a batch containing at least one
pasta-category meal at venue v and date d (every such meal carrying a
non-null external_id, per the data model), any previously stored row at
that venue and date whose category matches the Pasta pattern and whose
external_id is not among the batch's pasta-category ids for that group is
deleted by upsertMeals and does not reappear in the resulting store. -/
theorem upsertMeals_pastabar_rotation (b : List Meal) (s s' : Store)
    (tr : List Stmt) (v d : String) (pm r : Meal)
    (hv : '|' ∉ v.toList) (hd : '|' ∉ d.toList)
    (hpm : pm ∈ b) (hpmp : isPastaMeal pm = true)
    (hpml : pm.mensa_location = some v) (hpmd : pm.date = some d)
    (hkeepIds : ∀ m ∈ b, isPastaMeal m = true → m.mensa_location = some v →
      m.date = some d → m.external_id ≠ none)
    (hr : r ∈ s) (hrl : r.mensa_location = some v) (hrd : r.date = some d)
    (hrc : likeSub "Pasta" r.category = true)
    (hrid : r.external_id ≠ none)
    (hnotkept : ∀ m ∈ b, isPastaMeal m = true → m.mensa_location = some v →
      m.date = some d → m.external_id ≠ r.external_id)
    (h : upsertMeals b s = .ok (s', tr)) :
    r ∉ s' := by
  obtain ⟨xr, hxr⟩ : ∃ xr, r.external_id = some xr := by
    cases hx : r.external_id with
    | none => exact absurd hx hrid
    | some y => exact ⟨y, rfl⟩
  have hpmmem : pm ∈ (b.filter isPastaMeal).filter
      (fun m => m.mensa_location == some v && m.date == some d) := by
    rw [List.mem_filter]
    refine ⟨List.mem_filter.mpr ⟨hpm, hpmp⟩, ?_⟩
    simp [hpml, hpmd]
  have hkeepne : (((b.filter isPastaMeal).filter
      (fun m => m.mensa_location == some v && m.date == some d)).map
        (·.external_id)).isEmpty = false := by
    rw [List.isEmpty_eq_false_iff_exists_mem]
    exact ⟨pm.external_id, List.mem_map_of_mem _ hpmmem⟩
  have hmemFacts : ∀ y ∈ ((b.filter isPastaMeal).filter
      (fun m => m.mensa_location == some v && m.date == some d)).map
        (·.external_id),
      ∃ m ∈ b, isPastaMeal m = true ∧ m.mensa_location = some v ∧
        m.date = some d ∧ m.external_id = y := by
    intro y hy
    obtain ⟨m, hm, hmy⟩ := List.mem_map.mp hy
    rw [List.mem_filter] at hm
    obtain ⟨hm1, hm2⟩ := hm
    rw [List.mem_filter] at hm1
    rw [Bool.and_eq_true_iff] at hm2
    exact ⟨m, hm1.1, hm1.2, by simpa using hm2.1, by simpa using hm2.2, hmy⟩
  have hnone : (((b.filter isPastaMeal).filter
      (fun m => m.mensa_location == some v && m.date == some d)).map
        (·.external_id)).contains none = false := by
    rw [Bool.eq_false_iff]
    intro hc
    obtain ⟨m, hm, hmp, hml, hmd, hmy⟩ := hmemFacts none (by simpa using hc)
    exact hkeepIds m hm hmp hml hmd hmy
  have hsome : (((b.filter isPastaMeal).filter
      (fun m => m.mensa_location == some v && m.date == some d)).map
        (·.external_id)).contains (some xr) = false := by
    rw [Bool.eq_false_iff]
    intro hc
    obtain ⟨m, hm, hmp, hml, hmd, hmy⟩ := hmemFacts (some xr) (by simpa using hc)
    exact hnotkept m hm hmp hml hmd (by rw [hmy, hxr])
  have hcond : pastaDelCond v d (((b.filter isPastaMeal).filter
      (fun m => m.mensa_location == some v && m.date == some d)).map
        (·.external_id)) r = true := by
    unfold pastaDelCond sqlNotInOpt
    rw [hxr]
    simp only [hrl, hrd, hrc, hnone, hsome, beq_self_eq_true, Bool.true_and,
      Bool.and_true, Bool.not_false, Bool.and_self]
  have hdel : delAny b r = true := by
    unfold delAny
    apply Bool.or_eq_true_iff.mpr
    left
    apply Bool.or_eq_true_iff.mpr
    right
    rw [List.any_eq_true]
    refine ⟨_, pastaGroups_mem hpm hpmp hpml hpmd hv hd, ?_⟩
    simp only [hkeepne, hcond, Bool.not_false, Bool.true_and, Bool.and_self]
  have hnotclean : r ∉ afterCleanups b s := by
    rw [afterCleanups_eq_filter]
    intro hc
    rw [List.mem_filter] at hc
    rw [hdel] at hc
    simp at hc
  have hbne : b.isEmpty = false := by
    rw [List.isEmpty_eq_false_iff_exists_mem]
    exact ⟨pm, hpm⟩
  intro hmem
  unfold upsertMeals at h
  rw [hbne] at h
  simp only [Bool.false_eq_true, if_false] at h
  by_cases hvempty : (b.filter (fun m => !isMealEmpty m)).isEmpty
  · rw [if_pos hvempty] at h
    injection h with h
    rw [Prod.mk.injEq] at h
    rw [← h.1] at hmem
    exact hnotclean hmem
  · rw [if_neg hvempty] at h
    cases hall : upsertAll (afterCleanups b s)
        (b.filter (fun m => !isMealEmpty m)) with
    | error e => rw [hall] at h; exact absurd h (by simp)
    | ok s₄ =>
      rw [hall] at h
      injection h with h
      rw [Prod.mk.injEq] at h
      rw [← h.1] at hmem
      rcases upsertAll_mem _ _ _ r hall hmem with hin | hin
      · exact hnotclean hin
      · rw [List.mem_filter] at hin
        have hrp : isPastaMeal r = true := by
          unfold isPastaMeal
          cases hcat : r.category with
          | none => rw [hcat] at hrc; exact absurd hrc (by simp [likeSub])
          | some c =>
            rw [hcat] at hrc
            obtain ⟨hc, hjs⟩ := likeSub_pasta_js hrc
            simp [hc, hjs]
        exact hnotkept r hin.1 hrp hrl hrd rfl

/-- The previously stored rotating pastabar row of the rotation witness. -/
def pastaRowX : Meal :=
  { external_id := some "studierendenhaus_2025-01-06_Spaghetti"
    name := some "Spaghetti Bolognese"
    category := some "Pastabar"
    date := some "2025-01-06"
    mensa_location := some "studierendenhaus"
    price_student := some "3.20"
    price_employee := none
    price_other := none
    notes := some "" }

/-- The freshly fetched pastabar meal of the rotation witness. -/
def pastaMealY : Meal :=
  { external_id := some "studierendenhaus_2025-01-06_Penne"
    name := some "Penne Arrabbiata"
    category := some "Pastabar"
    date := some "2025-01-06"
    mensa_location := some "studierendenhaus"
    price_student := some "3.20"
    price_employee := none
    price_other := none
    notes := some "" }

/-- C3 witness: with a stored pastabar row X and a batch whose only pasta
meal for that venue/date is Y, upsertMeals deletes X, and the resulting
store holds exactly Y. -/
theorem upsertMeals_pastabar_rotation_witness :
    upsertMeals [pastaMealY] [pastaRowX] =
      .ok ([pastaMealY],
        [.delPasta "studierendenhaus" "2025-01-06", .upsert pastaMealY]) ∧
    pastaRowX ∉ [pastaMealY] := by
  have h : upsertMeals [pastaMealY] [pastaRowX] =
      .ok ([pastaMealY],
        [.delPasta "studierendenhaus" "2025-01-06", .upsert pastaMealY]) := by
    rfl
  refine ⟨h, ?_⟩
  exact upsertMeals_pastabar_rotation [pastaMealY] [pastaRowX] [pastaMealY]
    [.delPasta "studierendenhaus" "2025-01-06", .upsert pastaMealY]
    "studierendenhaus" "2025-01-06" pastaMealY pastaRowX
    (by decide) (by decide) (by decide) (by decide) (by decide) (by decide)
    (by decide) (by decide) (by decide) (by decide) (by decide) (by decide)
    (by decide) h

/-! ## Empty-meal pruning (C4) machinery -/

theorem addEmptyMeal_mem_shape {gs : List EmptyGroup} {m : Meal} {g' : EmptyGroup}
    (h : g' ∈ addEmptyMeal gs m) :
    (∃ g₁ ∈ gs, g'.key = g₁.key ∧ g'.loc = g₁.loc ∧ g'.date = g₁.date) ∨
    (g'.key = emptyKey m ∧ g'.loc = truthyStr m.mensa_location ∧
      g'.date = truthyStr m.date) := by
  unfold addEmptyMeal at h
  by_cases hc : gs.any (fun g => g.key = emptyKey m) = true
  · rw [if_pos hc] at h
    obtain ⟨g₁, hg₁, hmap⟩ := List.mem_map.mp h
    subst hmap
    left
    refine ⟨g₁, hg₁, ?_⟩
    by_cases hk : g₁.key = emptyKey m
    · rw [if_pos hk]
      cases hx : truthyStr m.external_id with
      | none => simp
      | some e =>
        by_cases he : e ∈ g₁.ids <;> simp [hx, he]
    · rw [if_neg hk]
      exact ⟨rfl, rfl, rfl⟩
  · rw [if_neg hc] at h
    rcases List.mem_append.mp h with hg | hg
    · left
      exact ⟨g', hg, rfl, rfl, rfl⟩
    · right
      simp only [List.mem_singleton] at hg
      subst hg
      cases hx : truthyStr m.external_id with
      | none => simp
      | some e => simp [hx]

theorem addEmptyMeal_preserves (gs : List EmptyGroup) (m : Meal) (g : EmptyGroup)
    (hg : g ∈ gs) :
    ∃ g' ∈ addEmptyMeal gs m, g'.key = g.key ∧ g'.loc = g.loc ∧
      g'.date = g.date ∧ ∀ x ∈ g.ids, x ∈ g'.ids := by
  unfold addEmptyMeal
  by_cases hc : gs.any (fun g => g.key = emptyKey m) = true
  · rw [if_pos hc]
    refine ⟨_, List.mem_map_of_mem _ hg, ?_⟩
    by_cases hk : g.key = emptyKey m
    · rw [if_pos hk]
      cases hx : truthyStr m.external_id with
      | none => exact ⟨rfl, rfl, rfl, fun x hx => hx⟩
      | some e =>
        dsimp only
        by_cases he : g.ids.contains e = true
        · rw [if_pos he]
          exact ⟨rfl, rfl, rfl, fun x hx => hx⟩
        · rw [if_neg he]
          exact ⟨rfl, rfl, rfl, fun x hx => List.mem_append_left _ hx⟩
    · rw [if_neg hk]
      exact ⟨rfl, rfl, rfl, fun x hx => hx⟩
  · rw [if_neg hc]
    exact ⟨g, List.mem_append_left _ hg, rfl, rfl, rfl, fun x hx => hx⟩

theorem addEmptyMeal_exists (gs : List EmptyGroup) (m : Meal) (x : String)
    (hx : truthyStr m.external_id = some x) :
    ∃ g ∈ addEmptyMeal gs m, g.key = emptyKey m ∧ x ∈ g.ids := by
  unfold addEmptyMeal
  by_cases hc : gs.any (fun g => g.key = emptyKey m) = true
  · rw [if_pos hc]
    obtain ⟨g₀, hg₀, hk₀⟩ := List.any_eq_true.mp hc
    rw [decide_eq_true_eq] at hk₀
    refine ⟨_, List.mem_map_of_mem _ hg₀, ?_⟩
    rw [if_pos hk₀, hx]
    dsimp only
    by_cases he : g₀.ids.contains x = true
    · rw [if_pos he]
      exact ⟨hk₀, by simpa using he⟩
    · rw [if_neg he]
      exact ⟨hk₀, List.mem_append_right _ (by simp)⟩
  · rw [if_neg hc]
    refine ⟨_, List.mem_append_right _ (List.mem_singleton_self _), ?_⟩
    rw [hx]
    dsimp only
    simp

theorem foldl_addEmpty_preserves :
    ∀ (E : List Meal) (gs : List EmptyGroup) (g : EmptyGroup), g ∈ gs →
      ∃ g' ∈ E.foldl addEmptyMeal gs, g'.key = g.key ∧ g'.loc = g.loc ∧
        g'.date = g.date ∧ ∀ x ∈ g.ids, x ∈ g'.ids := by
  intro E
  induction E with
  | nil => exact fun gs g hg => ⟨g, hg, rfl, rfl, rfl, fun x hx => hx⟩
  | cons m t ih =>
    intro gs g hg
    obtain ⟨g₁, hg₁, hk₁, hl₁, hd₁, hi₁⟩ := addEmptyMeal_preserves gs m g hg
    obtain ⟨g', hg', hk', hl', hd', hi'⟩ := ih (addEmptyMeal gs m) g₁ hg₁
    exact ⟨g', hg', hk'.trans hk₁, hl'.trans hl₁, hd'.trans hd₁,
      fun x hx => hi' x (hi₁ x hx)⟩

theorem foldl_addEmpty_exists :
    ∀ (E : List Meal) (gs : List EmptyGroup) (m : Meal) (x : String),
      m ∈ E → truthyStr m.external_id = some x →
      ∃ g ∈ E.foldl addEmptyMeal gs, g.key = emptyKey m ∧ x ∈ g.ids := by
  intro E
  induction E with
  | nil => exact fun gs m x hm _ => absurd hm (List.not_mem_nil m)
  | cons m₀ t ih =>
    intro gs m x hm hx
    rcases List.mem_cons.mp hm with hm₀ | hmt
    · subst hm₀
      obtain ⟨g₁, hg₁, hk₁, hi₁⟩ := addEmptyMeal_exists gs m x hx
      obtain ⟨g', hg', hk', _, _, hi'⟩ :=
        foldl_addEmpty_preserves t (addEmptyMeal gs m) g₁ hg₁
      exact ⟨g', hg', hk'.trans hk₁, hi' x hi₁⟩
    · exact ih (addEmptyMeal gs m₀) m x hmt hx

theorem foldl_addEmpty_shape :
    ∀ (E : List Meal) (gs : List EmptyGroup) (g : EmptyGroup),
      g ∈ E.foldl addEmptyMeal gs →
      (∃ g₀ ∈ gs, g.key = g₀.key ∧ g.loc = g₀.loc ∧ g.date = g₀.date) ∨
      (∃ m ∈ E, g.key = emptyKey m ∧ g.loc = truthyStr m.mensa_location ∧
        g.date = truthyStr m.date) := by
  intro E
  induction E with
  | nil => exact fun gs g hg => Or.inl ⟨g, hg, rfl, rfl, rfl⟩
  | cons m₀ t ih =>
    intro gs g hg
    rcases ih (addEmptyMeal gs m₀) g hg with ⟨g₀, hg₀, hk, hl, hd⟩ | ⟨m, hm, hp⟩
    · rcases addEmptyMeal_mem_shape hg₀ with ⟨g₁, hg₁, hk₁, hl₁, hd₁⟩ | ⟨hk₁, hl₁, hd₁⟩
      · exact Or.inl ⟨g₁, hg₁, hk.trans hk₁, hl.trans hl₁, hd.trans hd₁⟩
      · exact Or.inr ⟨m₀, List.mem_cons_self m₀ t,
          hk.trans hk₁, hl.trans hl₁, hd.trans hd₁⟩
    · exact Or.inr ⟨m, List.mem_cons_of_mem m₀ hm, hp⟩

theorem emptyGroups_exists {E : List Meal} {m : Meal} {x : String}
    (hm : m ∈ E) (hx : truthyStr m.external_id = some x) :
    ∃ g ∈ emptyGroups E, g.key = emptyKey m ∧ x ∈ g.ids :=
  foldl_addEmpty_exists E [] m x hm hx

theorem emptyGroups_shape {E : List Meal} {g : EmptyGroup}
    (hg : g ∈ emptyGroups E) :
    ∃ m ∈ E, g.key = emptyKey m ∧ g.loc = truthyStr m.mensa_location ∧
      g.date = truthyStr m.date := by
  rcases foldl_addEmpty_shape E [] g hg with ⟨g₀, hg₀, _⟩ | h
  · exact absurd hg₀ (List.not_mem_nil g₀)
  · exact h

theorem emptyKey_decomp {m : Meal} {loc d : String}
    (hlb : '|' ∉ loc.toList) (hdb : '|' ∉ d.toList)
    (hAb : '|' ∉ ((truthyStr m.mensa_location).getD "unknown").toList)
    (hBb : '|' ∉ ((truthyStr m.date).getD "unknown").toList)
    (hkey : emptyKey m = loc ++ "|" ++ d) :
    (truthyStr m.mensa_location).getD "unknown" = loc ∧
      (truthyStr m.date).getD "unknown" = d := by
  unfold emptyKey at hkey
  have h1 := congrArg splitKey hkey
  rw [splitKey_append hAb hBb, splitKey_append hlb hdb] at h1
  exact ⟨congrArg Prod.fst h1, congrArg Prod.snd h1⟩

theorem upsert_not_mem_cleanTrace (m : Meal) (meals : List Meal) :
    Stmt.upsert m ∉ cleanTrace meals := by
  unfold cleanTrace
  intro hc
  rcases List.mem_append.mp hc with hc1 | hc3
  · rcases List.mem_append.mp hc1 with hc1 | hc2
    · obtain ⟨d, _, hd⟩ := List.mem_map.mp hc1
      exact absurd hd (by simp)
    · obtain ⟨g, _, hg⟩ := List.mem_map.mp hc2
      exact absurd hg (by simp)
  · obtain ⟨g, _, hg⟩ := List.mem_map.mp hc3
    exact absurd hg (by simp)

/-- C4: empty-meal pruning.  For a batch meal that is empty (blank name,
blank notes, all prices blank) with a non-blank external_id, location and
date — the data model's bar-free, non-sentinel strings — and a batch whose
only meals with that id are empty, a successful upsertMeals never records
an upsert statement for the empty meal, and any previously stored row with
that external_id at that venue and date has been deleted from the final
store rather than overwritten. -/
theorem upsertMeals_empty_pruning (b : List Meal) (s s' : Store)
    (tr : List Stmt) (em r : Meal) (x loc d : String)
    (hem : em ∈ b) (hemE : isMealEmpty em = true)
    (hemid : em.external_id = some x) (hxne : x ≠ "")
    (heml : em.mensa_location = some loc) (hemd : em.date = some d)
    (hlocne : loc ≠ "") (hdne : d ≠ "")
    (hlocun : loc ≠ "unknown") (hdun : d ≠ "unknown")
    (hbar : ∀ m ∈ b, isMealEmpty m = true →
      '|' ∉ ((truthyStr m.mensa_location).getD "unknown").toList ∧
      '|' ∉ ((truthyStr m.date).getD "unknown").toList)
    (hbatch : ∀ m ∈ b, m.external_id = some x → isMealEmpty m = true)
    (hr : r ∈ s) (hrid : r.external_id = some x)
    (hrl : r.mensa_location = some loc) (hrd : r.date = some d)
    (h : upsertMeals b s = .ok (s', tr)) :
    r ∉ s' ∧ Stmt.upsert em ∉ tr := by
  have hE : em ∈ b.filter isMealEmpty := List.mem_filter.mpr ⟨hem, hemE⟩
  have htl : truthyStr em.mensa_location = some loc := by
    rw [heml]; unfold truthyStr; dsimp only; rw [if_neg hlocne]
  have htd : truthyStr em.date = some d := by
    rw [hemd]; unfold truthyStr; dsimp only; rw [if_neg hdne]
  have htx : truthyStr em.external_id = some x := by
    rw [hemid]; unfold truthyStr; dsimp only; rw [if_neg hxne]
  have hkey_em : emptyKey em = loc ++ "|" ++ d := by
    unfold emptyKey; rw [htl, htd]; rfl
  have hlb : '|' ∉ loc.toList := by
    have := (hbar em hem hemE).1
    rw [htl] at this
    exact this
  have hdb : '|' ∉ d.toList := by
    have := (hbar em hem hemE).2
    rw [htd] at this
    exact this
  obtain ⟨g, hg, hgk, hgx⟩ := emptyGroups_exists hE htx
  obtain ⟨m₀, hm₀, hmk, hml, hmd⟩ := emptyGroups_shape hg
  have hm₀b : m₀ ∈ b := (List.mem_filter.mp hm₀).1
  have hm₀E : isMealEmpty m₀ = true := (List.mem_filter.mp hm₀).2
  have hdec := emptyKey_decomp hlb hdb (hbar m₀ hm₀b hm₀E).1
    (hbar m₀ hm₀b hm₀E).2 (hmk.symm.trans (hgk.trans hkey_em))
  have hgl : g.loc = some loc := by
    rw [hml]
    cases hc : truthyStr m₀.mensa_location with
    | none => rw [hc] at hdec; exact absurd hdec.1.symm hlocun
    | some l => rw [hc] at hdec; rw [Option.getD_some] at hdec; rw [hdec.1]
  have hgd : g.date = some d := by
    rw [hmd]
    cases hc : truthyStr m₀.date with
    | none => rw [hc] at hdec; exact absurd hdec.2.symm hdun
    | some l => rw [hc] at hdec; rw [Option.getD_some] at hdec; rw [hdec.2]
  have hgne : g.ids.isEmpty = false := by
    rw [List.isEmpty_eq_false_iff_exists_mem]
    exact ⟨x, hgx⟩
  have hcond : emptyDelCond g r = true := by
    unfold emptyDelCond
    rw [hgl, hgd, hrid]
    simp only [hrl, hrd, beq_self_eq_true, Bool.true_and, hgne,
      Bool.not_false]
    apply Bool.or_eq_true_iff.mpr
    right
    simp [hgx]
  have hdel : delAny b r = true := by
    unfold delAny
    apply Bool.or_eq_true_iff.mpr
    right
    rw [List.any_eq_true]
    exact ⟨g, hg, hcond⟩
  have hnotclean : r ∉ afterCleanups b s := by
    rw [afterCleanups_eq_filter]
    intro hc
    rw [List.mem_filter] at hc
    rw [hdel] at hc
    simp at hc
  have hbne : b.isEmpty = false := by
    rw [List.isEmpty_eq_false_iff_exists_mem]
    exact ⟨em, hem⟩
  have hemvalid : Stmt.upsert em ∉
      (b.filter (fun m => !isMealEmpty m)).map Stmt.upsert := by
    intro hc
    obtain ⟨m', hm', he⟩ := List.mem_map.mp hc
    injection he with he
    subst he
    rw [List.mem_filter, hemE] at hm'
    simp at hm'
  unfold upsertMeals at h
  rw [hbne] at h
  simp only [Bool.false_eq_true, if_false] at h
  by_cases hvempty : (b.filter (fun m => !isMealEmpty m)).isEmpty
  · rw [if_pos hvempty] at h
    injection h with h
    rw [Prod.mk.injEq] at h
    constructor
    · rw [← h.1]
      exact hnotclean
    · rw [← h.2]
      exact upsert_not_mem_cleanTrace em b
  · rw [if_neg hvempty] at h
    cases hall : upsertAll (afterCleanups b s)
        (b.filter (fun m => !isMealEmpty m)) with
    | error e => rw [hall] at h; exact absurd h (by simp)
    | ok s₄ =>
      rw [hall] at h
      injection h with h
      rw [Prod.mk.injEq] at h
      constructor
      · rw [← h.1]
        intro hmem
        rcases upsertAll_mem _ _ _ r hall hmem with hin | hin
        · exact hnotclean hin
        · rw [List.mem_filter] at hin
          have := hbatch r hin.1 hrid
          rw [this] at hin
          simp at hin
      · rw [← h.2]
        intro hc
        rcases List.mem_append.mp hc with hc | hc
        · exact upsert_not_mem_cleanTrace em b hc
        · exact hemvalid hc

/-- The empty batch meal of the pruning witness: blank name, notes and
prices, with the external_id of a previously stored full row. -/
def emptyBatchMeal : Meal :=
  { external_id := some "campus_2025-01-06_Suppe"
    name := some "  "
    category := some "Suppen"
    date := some "2025-01-06"
    mensa_location := some "campus"
    price_student := none
    price_employee := some " "
    price_other := none
    notes := some "" }

/-- The previously stored non-empty row of the pruning witness. -/
def storedFullRow : Meal :=
  { external_id := some "campus_2025-01-06_Suppe"
    name := some "Tomatensuppe"
    category := some "Suppen"
    date := some "2025-01-06"
    mensa_location := some "campus"
    price_student := some "1.50"
    price_employee := none
    price_other := none
    notes := some "Vegan" }

/-- C4 witness: a batch holding only the empty version of a stored row
deletes that row (final store empty, trace a single empty-meal DELETE, no
upsert), as upsertMeals_empty_pruning predicts on this input. -/
theorem upsertMeals_empty_pruning_witness :
    upsertMeals [emptyBatchMeal] [storedFullRow] =
      .ok ([], [.delEmpty "campus|2025-01-06"]) ∧
    (storedFullRow ∉ ([] : Store) ∧
      Stmt.upsert emptyBatchMeal ∉ [Stmt.delEmpty "campus|2025-01-06"]) := by
  refine ⟨rfl, ?_⟩
  exact upsertMeals_empty_pruning [emptyBatchMeal] [storedFullRow] []
    [.delEmpty "campus|2025-01-06"] emptyBatchMeal storedFullRow
    "campus_2025-01-06_Suppe" "campus" "2025-01-06"
    (by decide) (by decide) (by decide) (by decide) (by decide) (by decide)
    (by decide) (by decide) (by decide) (by decide) (by decide) (by decide)
    (by decide) (by decide) (by decide) (by decide) rfl

theorem lastUp_exists {t : List Meal} {x : String} {m : Meal}
    (hm : m ∈ t) (hid : m.external_id = some x) :
    ∃ m', lastUp t x = some m' := by
  cases hl : lastUp t x with
  | some m' => exact ⟨m', rfl⟩
  | none =>
    unfold lastUp at hl
    rw [List.find?_eq_none] at hl
    have := hl m (List.mem_reverse.mpr hm)
    rw [hid] at this
    simp at this

/-- C2 (amended): the Philturm vegetable-bar collapse.  A philturm category
node whose truthy name contains the keyword under JavaScript (Unicode)
lower-casing parses to the single fixed placeholder — prices all '0.85',
external_id philturm_D_Gemuesebar — regardless of its raw item list; after
a successful upsertMeals of a batch holding that placeholder the store has
exactly one row with the placeholder id, and every previously stored
philturm row of that date whose category matches the SQL pattern
'%Gemüsebar%' (ASCII-only case folding, unlike the parser's test) and is
not the placeholder nor re-sent in the batch is gone. -/
theorem upsertMeals_gemuesebar_collapse (c : JVal) (cn D : String)
    (b : List Meal) (s s' : Store) (tr : List Stmt)
    (hname : jget c "name" = .ok (.jstr cn)) (hcn : cn ≠ "")
    (hinc : strIncludes "gemüsebar" (jsLower cn) = true)
    (hD : D ≠ "")
    (hpm : gemuesebarPlaceholder cn D ∈ b)
    (hu : UniqueIds s)
    (hids : ∀ m ∈ b, isMealEmpty m = false → m.external_id ≠ none)
    (h : upsertMeals b s = .ok (s', tr)) :
    catMeals D "philturm" c = .ok [gemuesebarPlaceholder cn D] ∧
    (gemuesebarPlaceholder cn D).external_id =
      some (philturmPlaceholderId D) ∧
    (gemuesebarPlaceholder cn D).price_student = some "0.85" ∧
    (gemuesebarPlaceholder cn D).price_employee = some "0.85" ∧
    (gemuesebarPlaceholder cn D).price_other = some "0.85" ∧
    s'.countP (fun r => r.external_id == some (philturmPlaceholderId D)) = 1 ∧
    (∀ r ∈ s, r.mensa_location = some "philturm" → r.date = some D →
      likeSub "Gemüsebar" r.category = true →
      r.external_id ≠ none →
      r.external_id ≠ some (philturmPlaceholderId D) →
      r ∉ b → r ∉ s') := by
  have hpid : (gemuesebarPlaceholder cn D).external_id =
      some (philturmPlaceholderId D) := by
    show some ("philturm" ++ "_" ++ D ++ "_" ++ "Gemuesebar") = _
    unfold philturmPlaceholderId
    simp [String.append_assoc]
  have hcat : catMeals D "philturm" c = .ok [gemuesebarPlaceholder cn D] := by
    unfold catMeals
    rw [if_pos rfl, hname]
    dsimp only
    rw [if_pos (by simp [truthyB, hcn]), if_pos hinc]
  have hpmE : isMealEmpty (gemuesebarPlaceholder cn D) = false := rfl
  have hpmV : gemuesebarPlaceholder cn D ∈
      b.filter (fun m => !isMealEmpty m) :=
    List.mem_filter.mpr ⟨hpm, by rw [hpmE]; rfl⟩
  have hbne : b.isEmpty = false := by
    rw [List.isEmpty_eq_false_iff_exists_mem]
    exact ⟨_, hpm⟩
  have hvne : (b.filter (fun m => !isMealEmpty m)).isEmpty = false := by
    rw [List.isEmpty_eq_false_iff_exists_mem]
    exact ⟨_, hpmV⟩
  have hdmem : D ∈ philturmDates b := by
    unfold philturmDates
    apply dedupFirst_mem
    rw [List.mem_filter]
    refine ⟨List.mem_filterMap.mpr ⟨gemuesebarPlaceholder cn D, ?_, rfl⟩, by simpa using hD⟩
    rw [List.mem_filter]
    exact ⟨hpm, by rfl⟩
  have hVids : ∀ m ∈ b.filter (fun m => !isMealEmpty m),
      m.external_id ≠ none := by
    intro m hm
    rw [List.mem_filter] at hm
    exact hids m hm.1 (by simpa using hm.2)
  unfold upsertMeals at h
  rw [hbne] at h
  simp only [Bool.false_eq_true, if_false] at h
  rw [hvne] at h
  simp only [Bool.false_eq_true, if_false] at h
  cases hall : upsertAll (afterCleanups b s)
      (b.filter (fun m => !isMealEmpty m)) with
  | error e => rw [hall] at h; exact absurd h (by simp)
  | ok s₄ =>
    rw [hall] at h
    injection h with h
    rw [Prod.mk.injEq] at h
    have hu₃ : UniqueIds (afterCleanups b s) := by
      rw [afterCleanups_eq_filter]
      exact filter_unique _ hu
    have hu' : UniqueIds s₄ := upsertAll_unique _ _ _ hall hu₃
    have hcount := upsertAll_count _ _ _ hu₃ hVids hall
    obtain ⟨m', hm'⟩ := lastUp_exists hpmV hpid
    obtain ⟨hm'V, hm'id⟩ := lastUp_some_mem hm'
    have hc1 : s₄.count m' = 1 := by
      rw [hcount m', hm'id]
      dsimp only
      rw [hm']
      dsimp only
      rw [if_pos rfl]
    have hm's₄ : m' ∈ s₄ := by
      rw [← List.count_pos_iff, hc1]
      exact Nat.one_pos
    have hcp1 : s₄.countP
        (fun r => r.external_id == some (philturmPlaceholderId D)) = 1 := by
      apply le_antisymm
      · exact hu' (philturmPlaceholderId D)
      · apply Nat.succ_le_of_lt
        apply List.countP_pos_iff.mpr
        exact ⟨m', hm's₄, by simp [hm'id]⟩
    refine ⟨hcat, hpid, rfl, rfl, rfl, by rw [← h.1]; exact hcp1, ?_⟩
    intro r hr hrl hrd hrc hrn hrnp hrb
    rw [← h.1]
    have hdel : delAny b r = true := by
      unfold delAny
      apply Bool.or_eq_true_iff.mpr
      left
      apply Bool.or_eq_true_iff.mpr
      left
      rw [List.any_eq_true]
      refine ⟨D, hdmem, ?_⟩
      unfold philturmDelCond
      cases hx : r.external_id with
      | none => exact absurd hx hrn
      | some xr =>
        have hxr : xr ≠ philturmPlaceholderId D := by
          intro hc
          exact hrnp (by rw [hx, hc])
        simp only [hrl, hrd, hrc, hxr, beq_self_eq_true, Bool.true_and,
          Bool.and_true, decide_eq_true_eq]
        simp [hxr]
    have hnotclean : r ∉ afterCleanups b s := by
      rw [afterCleanups_eq_filter]
      intro hc
      rw [List.mem_filter] at hc
      rw [hdel] at hc
      simp at hc
    intro hmem
    rcases upsertAll_mem _ _ _ r hall hmem with hin | hin
    · exact hnotclean hin
    · rw [List.mem_filter] at hin
      exact hrb hin.1

/-- A raw vegetable-bar item node of the C2 scenario feed. -/
def c2Item (nm : String) : JVal :=
  .jobj [("name", .jstr nm)]

/-- The upper-cased vegetable-bar category node with five raw items. -/
def c2Cat : JVal :=
  .jobj [("name", .jstr "GEMÜSEBAR"),
         ("meal", .jarr [c2Item "Tomaten", c2Item "Gurken",
           c2Item "Mais", c2Item "Bohnen", c2Item "Paprika"])]

/-- The parsed feed of the C2 scenario: one day, one category. -/
def c2Feed : JVal :=
  .jobj [("openmensa", .jobj [("canteen", .jobj [("day",
    .jobj [("date", .jstr "2025-01-06"), ("category", c2Cat)])])])]

/-- A stale stored vegetable-bar row whose category only matches the
keyword under Unicode case folding, not under SQL LIKE's ASCII folding. -/
def oldGemRow : Meal :=
  { external_id := some "philturm_2025-01-06_Alt"
    name := some "Altes Gemüse"
    category := some "GEMÜSEBAR"
    date := some "2025-01-06"
    mensa_location := some "philturm"
    price_student := some "1.00"
    price_employee := none
    price_other := none
    notes := none }

/-- A stale stored vegetable-bar row the SQL LIKE pattern does match. -/
def oldGemRowAscii : Meal :=
  { external_id := some "philturm_2025-01-06_Alt"
    name := some "Altes Gemüse"
    category := some "Philturm gemüsebar"
    date := some "2025-01-06"
    mensa_location := some "philturm"
    price_student := some "1.00"
    price_employee := none
    price_other := none
    notes := none }

/-- C2 counterexample: the feed's category "GEMÜSEBAR" contains the keyword
case-insensitively and is collapsed to the placeholder by the parser, yet
the previously stored same-venue, same-date, same-category row — not the
placeholder — survives upsertMeals: the DELETE's LIKE pattern folds ASCII
only, so 'Ü' does not match 'ü' and the store ends with two rows for that
venue/date/category instead of exactly one. -/
theorem gemuesebar_collapse_not_deleted :
    strIncludes "gemüsebar" (jsLower "GEMÜSEBAR") = true ∧
    extractMealsForDate c2Feed "2025-01-06" "philturm" =
      [gemuesebarPlaceholder "GEMÜSEBAR" "2025-01-06"] ∧
    upsertMeals (extractMealsForDate c2Feed "2025-01-06" "philturm")
        [oldGemRow] =
      .ok ([oldGemRow, gemuesebarPlaceholder "GEMÜSEBAR" "2025-01-06"],
        [.delPhilturm "2025-01-06",
         .upsert (gemuesebarPlaceholder "GEMÜSEBAR" "2025-01-06")]) ∧
    oldGemRow.mensa_location = some "philturm" ∧
    oldGemRow.date = some "2025-01-06" ∧
    oldGemRow.category = some "GEMÜSEBAR" ∧
    oldGemRow.external_id ≠ some (philturmPlaceholderId "2025-01-06") ∧
    oldGemRow ∈ [oldGemRow, gemuesebarPlaceholder "GEMÜSEBAR" "2025-01-06"] :=
  ⟨by decide, rfl, rfl, rfl, rfl, rfl, by decide, by simp⟩

/-- C2 witness: a philturm batch holding only the collapse placeholder for
2025-01-06, against a store holding one stale LIKE-matching row, deletes
the stale row and leaves exactly the placeholder, as
upsertMeals_gemuesebar_collapse predicts on this input. -/
theorem upsertMeals_gemuesebar_collapse_witness :
    upsertMeals [gemuesebarPlaceholder "GEMÜSEBAR" "2025-01-06"]
        [oldGemRowAscii] =
      .ok ([gemuesebarPlaceholder "GEMÜSEBAR" "2025-01-06"],
        [.delPhilturm "2025-01-06",
         .upsert (gemuesebarPlaceholder "GEMÜSEBAR" "2025-01-06")]) ∧
    catMeals "2025-01-06" "philturm" c2Cat =
      .ok [gemuesebarPlaceholder "GEMÜSEBAR" "2025-01-06"] ∧
    List.countP
      (fun r => r.external_id == some (philturmPlaceholderId "2025-01-06"))
      [gemuesebarPlaceholder "GEMÜSEBAR" "2025-01-06"] = 1 ∧
    oldGemRowAscii ∉ [gemuesebarPlaceholder "GEMÜSEBAR" "2025-01-06"] := by
  have hu : UniqueIds [oldGemRowAscii] := by
    intro x
    rw [List.countP_cons]
    simp only [List.countP_nil, Nat.zero_add]
    split <;> simp
  have h : upsertMeals [gemuesebarPlaceholder "GEMÜSEBAR" "2025-01-06"]
      [oldGemRowAscii] =
      .ok ([gemuesebarPlaceholder "GEMÜSEBAR" "2025-01-06"],
        [.delPhilturm "2025-01-06",
         .upsert (gemuesebarPlaceholder "GEMÜSEBAR" "2025-01-06")]) := rfl
  have happ := upsertMeals_gemuesebar_collapse c2Cat "GEMÜSEBAR" "2025-01-06"
    [gemuesebarPlaceholder "GEMÜSEBAR" "2025-01-06"] [oldGemRowAscii]
    [gemuesebarPlaceholder "GEMÜSEBAR" "2025-01-06"]
    [.delPhilturm "2025-01-06",
     .upsert (gemuesebarPlaceholder "GEMÜSEBAR" "2025-01-06")]
    rfl (by decide) (by decide) (by decide) (by simp) hu (by decide) h
  exact ⟨h, happ.1, happ.2.2.2.2.2.1,
    happ.2.2.2.2.2.2 oldGemRowAscii (by simp) rfl rfl (by decide)
      (by decide) (by decide) (by decide)⟩

/-- C7 witness: both spec examples, via cleanMealName_trailing_paren — the
all-short-token parenthetical (A,C,G) is dropped, the parenthetical with
the 8-character token Dressing is kept. -/
theorem cleanMealName_trailing_paren_witness :
    cleanMealName "Salat (A,C,G)" = "Salat" ∧
    cleanMealName "Salat (mit Dressing, Nüsse)" =
      "Salat (mit Dressing, Nüsse)" := by
  constructor
  · have h := cleanMealName_trailing_paren "Salat".toList "A,C,G".toList
      (by decide) (by decide)
      (fun c hc => by have he := Option.some.inj hc; subst he; rfl)
      (fun c hc => by have he := Option.some.inj hc; subst he; rfl)
      (by decide) (by decide) (by decide) (by decide) (by decide) (by decide)
    rw [if_pos (by decide)] at h
    exact h
  · have h := cleanMealName_trailing_paren "Salat".toList
      "mit Dressing, Nüsse".toList
      (by decide) (by decide)
      (fun c hc => by have he := Option.some.inj hc; subst he; rfl)
      (fun c hc => by have he := Option.some.inj hc; subst he; rfl)
      (by decide) (by decide) (by decide) (by decide) (by decide) (by decide)
    rw [if_neg (by decide)] at h
    exact h

/-- C7 counterexample: a preserved parenthetical is not returned verbatim —
the token 'mit  Dressing' is non-matching, so the group must be kept, yet
the later whitespace-collapse pass rewrites the double space inside it. -/
theorem cleanMealName_not_verbatim :
    isAllergenContent "mit  Dressing, Nüsse".toList = false ∧
    cleanMealName "Salat (mit  Dressing, Nüsse)" ≠
      "Salat (mit  Dressing, Nüsse)" ∧
    cleanMealName "Salat (mit  Dressing, Nüsse)" =
      "Salat (mit Dressing, Nüsse)" :=
  ⟨by decide, by decide, by decide⟩
